import Mathlib

/-!
Verification of the bombardino HTTP load-testing engine against its
natural-language specification.  Each Go function named in a claim is
shallowly embedded as an executable Lean definition; Go `float64`
arithmetic is modelled exactly over `ℚ`, machine integers over `ℤ`/`ℕ`,
and `time.Duration` (nanoseconds) over `ℚ`.
-/

namespace Bombardino

/-- Dynamic value as held in Go `interface{}` trees: request bodies,
variable-store entries and JSON-decoded data.  Mirrors the variant set
used by the substitutor, extractor and store
(string / int / float64 / bool / nil / arrays / maps). -/
inductive GoVal where
  | null
  | bool (b : Bool)
  | int (n : ℤ)
  | float (q : ℚ)
  | str (s : String)
  | arr (elems : List GoVal)
  | obj (fields : List (String × GoVal))
  deriving Repr

/-- Go `fmt.Sprintf("%v", x)` for a float64.  The exact decimal
formatting of Go is not material to any theorem below; integral floats
print their integer part, as in Go. -/
def goFormatFloat (q : ℚ) : String :=
  if q.den = 1 then toString q.num else toString q

/-- Go `fmt.Sprintf("%v", x)` on a dynamic value, as used by
`Store.GetString`.  Scalar cases follow Go exactly (`%v` of a nil
interface prints `<nil>`); composite values only occur in renderings no
theorem depends on. -/
def goFormat : GoVal → String
  | .null => "<nil>"
  | .bool b => cond b "true" "false"
  | .int n => toString n
  | .float q => goFormatFloat q
  | .str s => s
  | .arr _ => "[...]"
  | .obj _ => "map[...]"

/-- The variable store (`variables.Store`): a map from name to dynamic
value.  Concurrency is serialized in the source; a pure map is its
sequential semantics. -/
def VarStore := String → Option GoVal

/-- `Store.Set`. -/
def setVar (st : VarStore) (key : String) (v : GoVal) : VarStore :=
  fun k => if k = key then some v else st k

/-- `Store.GetString`: format the value with `%v`, empty string if absent. -/
def getString (st : VarStore) (key : String) : String :=
  match st key with
  | some v => goFormat v
  | none => ""

/-- First character class of the `varPattern` regexp `[a-zA-Z_]`. -/
def isNameStart (c : Char) : Bool := c.isAlpha || c = '_'

/-- Continuation character class of `varPattern`: `[a-zA-Z0-9_.]`. -/
def isNameChar (c : Char) : Bool := c.isAlphanum || c = '_' || c = '.'

/-- A string accepted in full by the capture group of `varPattern`. -/
def validName (s : String) : Bool :=
  match s.data with
  | [] => false
  | c :: cs => isNameStart c && cs.all isNameChar

/-- The token text `${name}`. -/
def tokenText (name : String) : String := "$\x7b" ++ name ++ "\x7d"

/-- Match of `varPattern` anchored at the head of the character list:
`$`, `{`, a first name character, a maximal run of name characters,
then `}`.  Returns the captured name and the characters after the
match.  (RE2 finds exactly this match here: the name classes exclude
`}` so no shorter run can be followed by `}`.) -/
def tryToken : List Char → Option (String × List Char)
  | '$' :: '\x7b' :: c :: cs =>
    if isNameStart c then
      match cs.dropWhile isNameChar with
      | '\x7d' :: rest => some (String.mk (c :: cs.takeWhile isNameChar), rest)
      | _ => none
    else none
  | _ => none

theorem tryToken_length {cs : List Char} {name : String} {rest : List Char}
    (h : tryToken cs = some (name, rest)) : rest.length < cs.length := by
  unfold tryToken at h
  split at h
  case h_1 c cs' =>
    split at h
    case isTrue =>
      split at h
      case h_1 rest' heq =>
        simp only [Option.some.injEq, Prod.mk.injEq] at h
        obtain ⟨-, h2⟩ := h
        subst h2
        have hsub : ((cs'.dropWhile isNameChar)).Sublist cs' :=
          List.dropWhile_sublist isNameChar
        rw [heq] at hsub
        have hle := hsub.length_le
        simp only [List.length_cons] at hle ⊢
        omega
      case h_2 => simp at h
    case isFalse => simp at h
  case h_2 => simp at h

/-- If the head character is not `$`, no token starts here. -/
theorem tryToken_not_dollar {c : Char} {cs : List Char} (h : c ≠ '$') :
    tryToken (c :: cs) = none := by
  unfold tryToken
  split
  case h_1 c' cs' heq =>
    rw [List.cons.injEq] at heq
    exact absurd heq.1 h
  case h_2 => rfl

/-- Maximal name run: `takeWhile` over a run of name characters
followed by a non-name character. -/
theorem takeWhile_all_append {p : Char → Bool} {l : List Char}
    (h : ∀ x ∈ l, p x = true) {c : Char} (hc : p c = false) (rest : List Char) :
    (l ++ c :: rest).takeWhile p = l := by
  induction l with
  | nil => simp [List.takeWhile, hc]
  | cons a t ih =>
    have ha : p a = true := h a (by simp)
    simp only [List.cons_append, List.takeWhile_cons, ha, if_true]
    rw [ih (fun x hx => h x (by simp [hx]))]

theorem dropWhile_all_append {p : Char → Bool} {l : List Char}
    (h : ∀ x ∈ l, p x = true) {c : Char} (hc : p c = false) (rest : List Char) :
    (l ++ c :: rest).dropWhile p = c :: rest := by
  induction l with
  | nil => simp [List.dropWhile, hc]
  | cons a t ih =>
    have ha : p a = true := h a (by simp)
    simp only [List.cons_append, List.dropWhile_cons, ha, if_true]
    exact ih (fun x hx => h x (by simp [hx]))

/-- `}` is not a name character, so a valid name run ends exactly at
the closing brace. -/
theorem tryToken_of_validName {name : String} (h : validName name = true)
    (suffix : List Char) :
    tryToken ('$' :: '\x7b' :: (name.data ++ '\x7d' :: suffix)) = some (name, suffix) := by
  cases name with
  | mk data =>
    cases data with
    | nil => simp [validName] at h
    | cons c cs =>
      simp only [validName, Bool.and_eq_true, List.all_eq_true] at h
      obtain ⟨h1, h2⟩ := h
      have hbrace : isNameChar '\x7d' = false := by decide
      show tryToken ('$' :: '\x7b' :: c :: (cs ++ '\x7d' :: suffix)) = _
      unfold tryToken
      simp only [h1, if_true]
      rw [dropWhile_all_append h2 hbrace, takeWhile_all_append h2 hbrace]
      rfl

/-- `varPattern.ReplaceAllStringFunc` over a character list: each
leftmost, non-overlapping match is replaced by the callback result
(the rendered value when the name is bound, the match text itself when
it is not), and scanning resumes after the match, never inside the
replacement. -/
def substReplacement (f : String → Option String) (name : String) : List Char :=
  match f name with
  | some rendered => rendered.data
  | none => (tokenText name).data

def substChars (lookup : String → Option String) : List Char → List Char
  | [] => []
  | c :: cs =>
    if h : (tryToken (c :: cs)).isSome then
      substReplacement lookup ((tryToken (c :: cs)).get h).1
        ++ substChars lookup ((tryToken (c :: cs)).get h).2
    else c :: substChars lookup cs
termination_by l => l.length
decreasing_by
  · exact tryToken_length (Option.some_get h).symm
  · simp

theorem substChars_nil (f : String → Option String) : substChars f [] = [] := by
  simp [substChars]

theorem substChars_token {f : String → Option String} {l : List Char}
    {name : String} {rest : List Char} (h : tryToken l = some (name, rest)) :
    substChars f l = substReplacement f name ++ substChars f rest := by
  match l with
  | [] => simp [tryToken] at h
  | c :: cs =>
    conv_lhs => unfold substChars
    simp only [h, Option.isSome_some, Option.get_some, dif_pos]

theorem substChars_no_token {f : String → Option String} {c : Char} {cs : List Char}
    (h : tryToken (c :: cs) = none) :
    substChars f (c :: cs) = c :: substChars f cs := by
  conv_lhs => unfold substChars
  simp only [h, Option.isSome_none, Bool.false_eq_true, dif_neg, not_false_iff]

/-- The replacement callback of `Substitute` (substitutor.go:24-35):
look up the variable; if present return the rendered string, else
`none` (keep the original match). -/
def substLookup (st : VarStore) (name : String) : Option String :=
  match st name with
  | some _ => some (getString st name)
  | none => none

/-- `Substitutor.Substitute`: replace all `${variable}` patterns in the
input string. -/
def Substitute (st : VarStore) (input : String) : String :=
  String.mk (substChars (substLookup st) input.data)

/-- `varPattern.FindStringSubmatch`: the first match in the string,
returned as (full match text, captured name). -/
def findFirstToken : List Char → Option (String × String)
  | [] => none
  | c :: cs =>
    match tryToken (c :: cs) with
    | some (name, _) => some (tokenText name, name)
    | none => findFirstToken cs

mutual

/-- `Substitutor.SubstituteBody` (substitutor.go:49-100): recursive
substitution over an arbitrary body tree.  A string that is in its
entirety one `${name}` token with `name` bound is replaced by the
stored value itself; other strings get plain string substitution; maps
and arrays are rebuilt recursively; other scalars pass through. -/
def SubstituteBody (st : VarStore) : GoVal → GoVal
  | .str s =>
    match findFirstToken s.data with
    | some (full, name) =>
      if full = s then
        match st name with
        | some v => v
        | none => .str s
      else .str (Substitute st s)
    | none => .str (Substitute st s)
  | .obj fields => .obj (substFields st fields)
  | .arr elems => .arr (substElems st elems)
  | v => v

def substElems (st : VarStore) : List GoVal → List GoVal
  | [] => []
  | x :: xs => SubstituteBody st x :: substElems st xs

def substFields (st : VarStore) : List (String × GoVal) → List (String × GoVal)
  | [] => []
  | (k, v) :: xs => (k, SubstituteBody st v) :: substFields st xs

end

theorem stringExt {a b : String} (h : a.data = b.data) : a = b := by
  cases a; cases b; cases h; rfl

theorem tokenText_data (name : String) :
    (tokenText name).data = '$' :: '\x7b' :: (name.data ++ ['\x7d']) := by
  simp [tokenText, String.data_append]

/-- The first match `FindStringSubmatch` reports in a string that is
exactly one token is the whole string. -/
theorem findFirstToken_token {name : String} (h : validName name = true) :
    findFirstToken (tokenText name).data = some (tokenText name, name) := by
  rw [tokenText_data]
  show findFirstToken ('$' :: '\x7b' :: (name.data ++ '\x7d' :: [])) = _
  unfold findFirstToken
  rw [tryToken_of_validName h []]

/-- Leftmost single-pass replacement: characters before the first token
are copied, the token is replaced by the callback result, and scanning
continues with the remaining input only — never with the replacement
text. -/
theorem substChars_append_token (f : String → Option String) (pre : List Char)
    (hpre : ∀ c ∈ pre, c ≠ '$') {name : String} (hname : validName name = true)
    (suffix : List Char) :
    substChars f (pre ++ '$' :: '\x7b' :: (name.data ++ '\x7d' :: suffix))
      = pre ++ (substReplacement f name ++ substChars f suffix) := by
  induction pre with
  | nil =>
    simp only [List.nil_append]
    rw [substChars_token (tryToken_of_validName hname suffix)]
  | cons c pre ih =>
    have hc : tryToken (c :: (pre ++ '$' :: '\x7b' :: (name.data ++ '\x7d' :: suffix))) = none :=
      tryToken_not_dollar (hpre c (by simp))
    simp only [List.cons_append]
    rw [substChars_no_token hc, ih (fun x hx => hpre x (by simp [hx]))]

/-!  JSON documents, the gjson dotted-path subset the project relies on
(object keys, numeric array indices, `#` for array length), and the
shape of `json.Marshal` output. -/

inductive Json where
  | null
  | bool (b : Bool)
  | num (q : ℚ)
  | str (s : String)
  | arr (elems : List Json)
  | obj (fields : List (String × Json))
  deriving Repr

/-- Dotted-path splitting (`strings.Split` on `.` as gjson does for
plain paths). -/
def splitSegsAux (cur : List Char) : List Char → List String
  | [] => [String.mk cur.reverse]
  | c :: cs =>
    if c = '.' then String.mk cur.reverse :: splitSegsAux [] cs
    else splitSegsAux (c :: cur) cs

def splitPath (p : String) : List String := splitSegsAux [] p.data

/-- Decimal parse of an array index (`strconv`-style: all digits,
non-empty). -/
def parseNat? (s : String) : Option ℕ :=
  if s.data ≠ [] ∧ s.data.all (fun c => c.isDigit) then
    some (s.data.foldl (fun acc c => acc * 10 + (c.toNat - 48)) 0)
  else none

/-- One dotted-path segment of a gjson lookup. -/
def gjsonStep (j : Json) (seg : String) : Option Json :=
  match j with
  | .obj fields => (fields.find? (fun kv => kv.1 = seg)).map (fun kv => kv.2)
  | .arr elems =>
    if seg = "#" then some (.num elems.length)
    else
      match parseNat? seg with
      | some i => elems[i]?
      | none => none
  | _ => none

/-- `gjson.Get`: evaluate a dotted path over a JSON document. -/
def gjsonGet (j : Json) (path : String) : Option Json :=
  (splitPath path).foldlM gjsonStep j

/-- JSON string quoting as done by `json.Marshal`; escaping of special
characters inside the string is not modelled (no theorem depends on it). -/
def jsonQuote (s : String) : String := "\"" ++ s ++ "\""

mutual

/-- Shape of `json.Marshal` output for a JSON document: map keys are
serialized in sorted order, numbers without quotes, strings quoted. -/
def serializeJson : Json → String
  | .null => "null"
  | .bool b => cond b "true" "false"
  | .num q => goFormatFloat q
  | .str s => jsonQuote s
  | .arr xs => "[" ++ String.intercalate "," (serializeJsonList xs) ++ "]"
  | .obj fs =>
    "\x7b" ++ String.intercalate ","
      (((serializeJsonFields fs).mergeSort (fun a b => decide (a.1 ≤ b.1))).map
        (fun kv => kv.2)) ++ "\x7d"

def serializeJsonList : List Json → List String
  | [] => []
  | x :: xs => serializeJson x :: serializeJsonList xs

def serializeJsonFields : List (String × Json) → List (String × String)
  | [] => []
  | (k, v) :: xs => (k, jsonQuote k ++ ":" ++ serializeJson v) :: serializeJsonFields xs

end

mutual

/-- `json.Marshal` on a dynamic body tree (as serialized by
`createRequest`): integers and floats marshal as JSON numbers, strings
as quoted strings, map keys in sorted order. -/
def serializeGoVal : GoVal → String
  | .null => "null"
  | .bool b => cond b "true" "false"
  | .int n => toString n
  | .float q => goFormatFloat q
  | .str s => jsonQuote s
  | .arr xs => "[" ++ String.intercalate "," (serializeGoList xs) ++ "]"
  | .obj fs =>
    "\x7b" ++ String.intercalate ","
      (((serializeGoFields fs).mergeSort (fun a b => decide (a.1 ≤ b.1))).map
        (fun kv => kv.2)) ++ "\x7d"

def serializeGoList : List GoVal → List String
  | [] => []
  | x :: xs => serializeGoVal x :: serializeGoList xs

def serializeGoFields : List (String × GoVal) → List (String × String)
  | [] => []
  | (k, v) :: xs => (k, jsonQuote k ++ ":" ++ serializeGoVal v) :: serializeGoFields xs

end

/-- A response body as the extractor and assertion evaluator observe
it: the byte slice is consulted only for emptiness, JSON validity and
gjson lookups, so it is modelled by its parse status.  (On invalid
bytes gjson lookups are modelled as not found.) -/
inductive BodyBytes where
  | empty
  | invalid (raw : String)
  | valid (j : Json)

/-- `gjson.GetBytes` over a response body. -/
def gjsonGetBytes : BodyBytes → String → Option Json
  | .empty, _ => none
  | .invalid _, _ => none
  | .valid j, path => gjsonGet j path

/-- `models.ExtractionRule`: (name, source, path). -/
structure ExtractionRule where
  name : String
  source : String
  path : String

/-- Response headers as observed through `http.Header.Get`
(case-insensitive name resolution is internal to the getter); `none`
models a nil header map. -/
def HeaderGet := Option (String → String)

/-- `Extractor.extractFromBody` (extractor.go:50-80): empty body is
not found; otherwise evaluate the gjson path; map the gjson result
type to a dynamic value — strings stay strings, a numeric value
becomes an int when integral and a float otherwise, booleans and null
map directly, arrays and objects are stored as their raw JSON text. -/
def extractFromBody (body : BodyBytes) (path : String) : Option GoVal :=
  match body with
  | .empty => none
  | .invalid _ => none
  | .valid j =>
    match gjsonGet j path with
    | none => none
    | some r =>
      match r with
      | .str s => some (.str s)
      | .num q => if q.den = 1 then some (.int q.num) else some (.float q)
      | .bool b => some (.bool b)
      | .null => some .null
      | _ => some (.str (serializeJson r))

/-- `Extractor.extractFromHeader` (extractor.go:83-94). -/
def extractFromHeader (headers : HeaderGet) (headerName : String) : Option GoVal :=
  match headers with
  | none => none
  | some get => if get headerName = "" then none else some (.str (get headerName))

/-- `Extractor.Extract` (extractor.go:24-47): process the rules in
order; a found value is written to the store; an unknown source
returns the error immediately, keeping the store as already mutated. -/
def Extract (st : VarStore) (rules : List ExtractionRule) (body : BodyBytes)
    (headers : HeaderGet) (statusCode : ℤ) : VarStore × Option String :=
  match rules with
  | [] => (st, none)
  | rule :: rest =>
    match rule.source with
    | "body" =>
      let st2 :=
        match extractFromBody body rule.path with
        | some v => setVar st rule.name v
        | none => st
      Extract st2 rest body headers statusCode
    | "header" =>
      let st2 :=
        match extractFromHeader headers rule.path with
        | some v => setVar st rule.name v
        | none => st
      Extract st2 rest body headers statusCode
    | "status" =>
      Extract (setVar st rule.name (.int statusCode)) rest body headers statusCode
    | _ => (st, some ("unknown source: " ++ rule.source))

/-- C5: for a string body that is in its entirety one `${x}` token with
`x` bound, `SubstituteBody` returns the stored value itself (dynamic
type preserved); a value extracted from a body as an integral JSON
number is stored as an integer; and such an integer serializes back
into a request body as a bare JSON number, not a quoted string. -/
theorem substituteBody_whole_token_preserves_type :
    (∀ (st : VarStore) (name : String) (v : GoVal),
        validName name = true → st name = some v →
        SubstituteBody st (.str (tokenText name)) = v)
    ∧ (∀ (j : Json) (path : String) (q : ℚ),
        gjsonGet j path = some (.num q) → q.den = 1 →
        extractFromBody (.valid j) path = some (.int q.num))
    ∧ (∀ (st : VarStore) (key name : String) (n : ℤ),
        validName name = true → st name = some (.int n) →
        serializeGoVal (SubstituteBody st (.obj [(key, .str (tokenText name))]))
          = "\x7b" ++ jsonQuote key ++ ":" ++ toString n ++ "\x7d") := by
  have whole : ∀ (st : VarStore) (name : String) (v : GoVal),
      validName name = true → st name = some v →
      SubstituteBody st (.str (tokenText name)) = v := by
    intro st name v hname hv
    unfold SubstituteBody
    rw [findFirstToken_token hname]
    simp [hv]
  refine ⟨whole, ?_, ?_⟩
  · intro j path q hget hden
    simp only [extractFromBody, hget, hden, if_true]
  · intro st key name n hname hv
    unfold SubstituteBody
    simp only [substFields, whole st name (.int n) hname hv]
    unfold serializeGoVal
    simp only [serializeGoFields]
    rw [show serializeGoVal (GoVal.int n) = toString n from rfl]
    rw [show List.mergeSort [(key, jsonQuote key ++ ":" ++ toString n)]
          (fun a b => decide (a.1 ≤ b.1))
        = [(key, jsonQuote key ++ ":" ++ toString n)] from by simp]
    rfl

def stC5 : VarStore := fun n => if n = "user_id" then some (.int 42) else none

def jC5 : Json := .obj [("user", .obj [("id", .num 42)])]

theorem substituteBody_whole_token_preserves_type_witness :
    SubstituteBody stC5 (.str (tokenText "user_id")) = .int 42
    ∧ extractFromBody (.valid jC5) "user.id" = some (.int 42)
    ∧ serializeGoVal (SubstituteBody stC5 (.obj [("value", .str (tokenText "user_id"))]))
        = "\x7b\"value\":42\x7d" := by
  have h := substituteBody_whole_token_preserves_type
  refine ⟨h.1 stC5 "user_id" (.int 42) (by decide) rfl, ?_, ?_⟩
  · have h2 := h.2.1 jC5 "user.id" 42 (by rfl) (by rfl)
    exact h2.trans (congrArg (fun z => some (GoVal.int z)) (by norm_num))
  · have h3 := h.2.2 stC5 "value" "user_id" 42 (by decide) rfl
    exact h3.trans (by decide)

/-- C10: string substitution is single-pass.  Characters before a
token are copied verbatim, the token is replaced (once) by the stored
rendering when bound (or kept literal when not), and scanning
continues with the remaining input only — the inserted rendering is
never re-expanded, even when it itself contains `${...}` token text. -/
theorem substitute_single_pass (st : VarStore) (pre name suf : String)
    (hpre : ∀ c ∈ pre.data, c ≠ '$') (hname : validName name = true) :
    Substitute st (pre ++ tokenText name ++ suf)
      = pre ++ (match substLookup st name with
                | some rendered => rendered
                | none => tokenText name) ++ Substitute st suf := by
  apply stringExt
  have hdata : (pre ++ tokenText name ++ suf).data
      = pre.data ++ ('$' :: '\x7b' :: (name.data ++ '\x7d' :: suf.data)) := by
    simp [String.data_append, tokenText_data, List.append_assoc]
  have hlhs : (Substitute st (pre ++ tokenText name ++ suf)).data
      = substChars (substLookup st) (pre ++ tokenText name ++ suf).data := rfl
  rw [hlhs, hdata, substChars_append_token (substLookup st) pre.data hpre hname suf.data]
  have hrep : (match substLookup st name with
                | some rendered => rendered
                | none => tokenText name).data
      = substReplacement (substLookup st) name := by
    cases hls : substLookup st name <;> simp [substReplacement, hls]
  simp [String.data_append, hrep, Substitute]

def stC10 : VarStore := fun n =>
  if n = "x" then some (.str (tokenText "y"))
  else if n = "y" then some (.str "Z") else none

theorem substitute_single_pass_witness :
    Substitute stC10 (tokenText "x") = tokenText "y" := by
  have h := substitute_single_pass stC10 "" "x" "" (by simp) (by decide)
  have hlook : substLookup stC10 "x" = some (tokenText "y") := rfl
  rw [hlook] at h
  have hempty : Substitute stC10 "" = "" := by
    show String.mk (substChars (substLookup stC10) []) = ""
    rw [substChars_nil]
  rw [hempty] at h
  simpa using h

/-- C9: `Extract` stops at the first rule with an unknown source,
returning the error immediately; the rules after it are never
evaluated and the writes performed by the earlier rules remain in the
returned store. -/
theorem extract_unknown_source_short_circuit
    (st : VarStore) (rs1 rs2 : List ExtractionRule) (bad : ExtractionRule)
    (body : BodyBytes) (headers : HeaderGet) (statusCode : ℤ)
    (h1 : ∀ r ∈ rs1, r.source = "body" ∨ r.source = "header" ∨ r.source = "status")
    (hbad : bad.source ≠ "body" ∧ bad.source ≠ "header" ∧ bad.source ≠ "status") :
    Extract st (rs1 ++ bad :: rs2) body headers statusCode
      = ((Extract st rs1 body headers statusCode).1,
         some ("unknown source: " ++ bad.source)) := by
  obtain ⟨hb1, hb2, hb3⟩ := hbad
  induction rs1 generalizing st with
  | nil =>
    simp only [List.nil_append]
    conv_lhs => unfold Extract
    split
    case h_1 heq => exact absurd heq hb1
    case h_2 heq => exact absurd heq hb2
    case h_3 heq => exact absurd heq hb3
    case h_4 => rfl
  | cons r rs1 ih =>
    have hr := h1 r (by simp)
    have hrest : ∀ x ∈ rs1, x.source = "body" ∨ x.source = "header" ∨ x.source = "status" :=
      fun x hx => h1 x (by simp [hx])
    simp only [List.cons_append]
    rcases hr with h | h | h
    · conv_lhs => unfold Extract
      conv_rhs => unfold Extract
      rw [h]
      exact ih _ hrest
    · conv_lhs => unfold Extract
      conv_rhs => unfold Extract
      rw [h]
      exact ih _ hrest
    · conv_lhs => unfold Extract
      conv_rhs => unfold Extract
      rw [h]
      exact ih _ hrest

def stEmpty : VarStore := fun _ => none

def ruleStatus : ExtractionRule := ⟨"code", "status", ""⟩

def ruleBad : ExtractionRule := ⟨"x", "foo", ""⟩

def ruleAfter : ExtractionRule := ⟨"y", "status", ""⟩

theorem extract_unknown_source_short_circuit_witness :
    (Extract stEmpty [ruleStatus, ruleBad, ruleAfter] .empty none 201).2
        = some ("unknown source: foo")
    ∧ (Extract stEmpty [ruleStatus, ruleBad, ruleAfter] .empty none 201).1 "code"
        = some (.int 201) := by
  have h := extract_unknown_source_short_circuit stEmpty [ruleStatus] [ruleAfter] ruleBad
    .empty none 201
    (by intro r hr; simp only [List.mem_singleton] at hr; subst hr; right; right; rfl)
    (by refine ⟨?_, ?_, ?_⟩ <;> decide)
  have hlist : [ruleStatus] ++ ruleBad :: [ruleAfter] = [ruleStatus, ruleBad, ruleAfter] := rfl
  rw [hlist] at h
  rw [h]
  exact ⟨rfl, rfl⟩

/-!  The result aggregator and its percentile computation
(engine.go:493-617).  Durations (`time.Duration`) are modelled as `ℤ`
nanoseconds; the float64 index arithmetic of `calculatePercentile` is
modelled exactly over `ℚ` (for the percentiles 50, 95 and 99 actually
passed, the float computation is exact for every feasible list
length). -/

/-- Go conversion of a float64 to an integer type: truncation toward
zero. -/
def goTrunc (q : ℚ) : ℤ := if 0 ≤ q then ⌊q⌋ else ⌈q⌉

/-- `calculatePercentile` (engine.go:590-617): sort ascending (Go
`sort.Slice`; over values the sorted permutation is unique, so
insertion sort is an exact model), compute the fractional index
`percentile * (n-1) / 100`, truncate it, and return the sample at the
truncated index, or the last sample when the next index would run off
the end.  The guard `lowerIndex == int(index)` of the source compares
a value with itself and always holds, so the interpolation arm below
it is unreachable; it is embedded verbatim nonetheless. -/
def calculatePercentile (times : List ℤ) (percentile : ℚ) : ℤ :=
  if times.length = 0 then 0
  else
    let sorted := times.insertionSort (· ≤ ·)
    let index : ℚ := percentile * ((times.length : ℚ) - 1) / 100
    let lowerIndex : ℤ := goTrunc index
    let upperIndex : ℤ := lowerIndex + 1
    if upperIndex ≥ (times.length : ℤ) then sorted.getD (times.length - 1) 0
    else if lowerIndex = goTrunc index then sorted.getD lowerIndex.toNat 0
    else
      let lower := sorted.getD lowerIndex.toNat 0
      let upper := sorted.getD upperIndex.toNat 0
      goTrunc ((lower : ℚ) + (index - (lowerIndex : ℚ)) * ((upper : ℚ) - (lower : ℚ)))

/-- The percentile function exactly as the claim states it: linear
interpolation between the neighbouring sorted samples when the index
is fractional.  Stated from the claim wording, for comparison with
`calculatePercentile`. -/
def claimPercentile (times : List ℤ) (percentile : ℚ) : ℚ :=
  if times.length = 0 then 0
  else if times.length = 1 then ((times.headD 0 : ℤ) : ℚ)
  else
    let sorted := times.insertionSort (· ≤ ·)
    let i : ℚ := percentile * ((times.length : ℚ) - 1) / 100
    if ⌊i⌋ = ⌈i⌉ then ((sorted.getD ⌊i⌋.toNat 0 : ℤ) : ℚ)
    else
      ((sorted.getD ⌊i⌋.toNat 0 : ℤ) : ℚ)
        + (i - (⌊i⌋ : ℚ)) * (((sorted.getD ⌈i⌉.toNat 0 : ℤ) : ℚ) - ((sorted.getD ⌊i⌋.toNat 0 : ℤ) : ℚ))

/-- C2 (failing input): with samples `[100, 200]` and percentile 50
the index is 1/2, so the claimed linear interpolation yields 150, but
`calculatePercentile` returns the lower sample 100: its guard
`lowerIndex == int(index)` always holds and the interpolation arm is
dead code. -/
theorem calculatePercentile_failing_input :
    calculatePercentile [100, 200] 50 = 100
    ∧ claimPercentile [100, 200] 50 = 150
    ∧ (100 : ℚ) ≠ 150 := by
  have hfl : (⌊(1:ℚ)/2⌋ : ℤ) = 0 := by norm_num
  have hcl : (⌈(1:ℚ)/2⌉ : ℤ) = 1 := by
    rw [Int.ceil_eq_iff]
    norm_num
  refine ⟨?_, ?_, by norm_num⟩
  · show calculatePercentile [100, 200] 50 = 100
    norm_num [calculatePercentile, goTrunc, List.insertionSort, List.orderedInsert]
  · show claimPercentile [100, 200] 50 = 150
    norm_num [claimPercentile, List.insertionSort, List.orderedInsert, hfl, hcl]

/-- `models.TestResult`: one executed (or failed) request as consumed
by the aggregator, including the assertion bookkeeping fields of the
executor. -/
structure TestResult where
  testName : String
  url : String
  method : String
  statusCode : ℤ
  responseTime : ℤ
  success : Bool
  error : String
  timestamp : ℤ
  assertionsPassed : ℕ := 0
  assertionsFailed : ℕ := 0
  failedAssertions : List String := []

/-- The global fields of `models.Summary` that `collectResults`
computes (histograms as tally functions; the per-endpoint summaries
repeat the same shape per test name and are not needed by any claim). -/
structure Summary where
  totalRequests : ℕ := 0
  successfulReqs : ℕ := 0
  failedReqs : ℕ := 0
  statusCodes : ℤ → ℕ := fun _ => 0
  errors : String → ℕ := fun _ => 0
  minResponseTime : ℤ := 0
  maxResponseTime : ℤ := 0
  avgResponseTime : ℤ := 0
  totalTime : ℤ := 0
  requestsPerSec : ℚ := 0
  p50ResponseTime : ℤ := 0
  p95ResponseTime : ℤ := 0
  p99ResponseTime : ℤ := 0

/-- The per-result body of the `for result := range results` loop of
`collectResults` (engine.go:502-547): counters, histograms, and the
min/max tracking, where a minimum of zero is treated as not yet set. -/
def collectStep (s : Summary) (r : TestResult) : Summary :=
  { s with
    totalRequests := s.totalRequests + 1
    successfulReqs := if r.success then s.successfulReqs + 1 else s.successfulReqs
    failedReqs := if r.success then s.failedReqs else s.failedReqs + 1
    errors :=
      if !r.success && r.error != "" then
        fun e => if e = r.error then s.errors e + 1 else s.errors e
      else s.errors
    statusCodes := fun c => if c = r.statusCode then s.statusCodes c + 1 else s.statusCodes c
    minResponseTime :=
      if s.minResponseTime = 0 ∨ r.responseTime < s.minResponseTime then r.responseTime
      else s.minResponseTime
    maxResponseTime :=
      if r.responseTime > s.maxResponseTime then r.responseTime else s.maxResponseTime }

/-- `collectResults` (engine.go:493-588): fold the result stream, then
— when any results arrived — compute the average (`time.Duration`
division truncates), the flat-mode total time, the request rate, and
the three percentiles over the response-time list. -/
def collectResults (results : List TestResult) : Summary :=
  let s := results.foldl collectStep {}
  if h : 0 < results.length then
    let hne : results ≠ [] := List.length_pos.mp h
    let allTimes := results.map (fun r => r.responseTime)
    let totalResponseTime := allTimes.sum
    let totalTime := (results.getLast hne).timestamp - (results.head hne).timestamp
        + (results.getLast hne).responseTime
    { s with
      avgResponseTime := totalResponseTime.tdiv results.length
      totalTime := totalTime
      requestsPerSec :=
        if 0 < totalTime then (results.length : ℚ) / ((totalTime : ℚ) / 1000000000)
        else s.requestsPerSec
      p50ResponseTime := calculatePercentile allTimes 50
      p95ResponseTime := calculatePercentile allTimes 95
      p99ResponseTime := calculatePercentile allTimes 99 }
  else s

/-- For a nonnegative percentile the index is nonnegative, the
truncation is a floor, and the always-true guard collapses: the
function returns the sample at the floored index, clamped to the last
sample. -/
theorem calculatePercentile_eq (times : List ℤ) (hne : times.length ≠ 0) (p : ℚ)
    (hp : 0 ≤ p) :
    calculatePercentile times p =
      if ⌊p * ((times.length : ℚ) - 1) / 100⌋ + 1 ≥ (times.length : ℤ)
      then (times.insertionSort (· ≤ ·)).getD (times.length - 1) 0
      else (times.insertionSort (· ≤ ·)).getD (⌊p * ((times.length : ℚ) - 1) / 100⌋).toNat 0 := by
  have hidx : 0 ≤ p * ((times.length : ℚ) - 1) / 100 := by
    apply div_nonneg _ (by norm_num)
    apply mul_nonneg hp
    have h1 : (1:ℚ) ≤ (times.length : ℚ) := by
      exact_mod_cast Nat.one_le_iff_ne_zero.mpr hne
    linarith
  unfold calculatePercentile
  rw [if_neg hne]
  simp only [goTrunc, if_pos hidx]
  simp

theorem getD_mem_of_lt {l : List ℤ} {i : ℕ} (h : i < l.length) : l.getD i 0 ∈ l := by
  rw [List.getD_eq_getElem l 0 h]
  exact List.getElem_mem h

/-- Every value `calculatePercentile` returns is one of the samples. -/
theorem calculatePercentile_mem (times : List ℤ) (hne : times ≠ []) (p : ℚ)
    (hp : 0 ≤ p) : calculatePercentile times p ∈ times := by
  have hlen : times.length ≠ 0 := Nat.pos_iff_ne_zero.mp (List.length_pos.mpr hne)
  have hperm := List.perm_insertionSort (· ≤ ·) times
  have hlen2 : (times.insertionSort (· ≤ ·)).length = times.length := hperm.length_eq
  rw [calculatePercentile_eq times hlen p hp]
  have hmem : ∀ i : ℕ, i < times.length →
      (times.insertionSort (· ≤ ·)).getD i 0 ∈ times := by
    intro i hi
    exact hperm.mem_iff.mp (getD_mem_of_lt (by omega))
  split
  · exact hmem _ (by omega)
  case isFalse hnot =>
    have hfl : 0 ≤ ⌊p * ((times.length : ℚ) - 1) / 100⌋ := by
      apply Int.floor_nonneg.mpr
      apply div_nonneg _ (by norm_num)
      apply mul_nonneg hp
      have h1 : (1:ℚ) ≤ (times.length : ℚ) := by
        exact_mod_cast Nat.one_le_iff_ne_zero.mpr hlen
      linarith
    exact hmem _ (by omega)

theorem sorted_getD_le {l : List ℤ} (hs : List.Sorted (· ≤ ·) l) {i j : ℕ}
    (hij : i ≤ j) (hj : j < l.length) : l.getD i 0 ≤ l.getD j 0 := by
  rcases Nat.lt_or_ge i j with hlt | hge
  · rw [List.getD_eq_getElem l 0 (by omega), List.getD_eq_getElem l 0 hj]
    have := List.pairwise_iff_get.mp hs ⟨i, by omega⟩ ⟨j, hj⟩ hlt
    simpa using this
  · have : i = j := by omega
    subst this
    exact le_refl _

/-- `calculatePercentile` is monotone in the percentile. -/
theorem calculatePercentile_mono (times : List ℤ) (hne : times ≠ []) {p q : ℚ}
    (hp : 0 ≤ p) (hpq : p ≤ q) :
    calculatePercentile times p ≤ calculatePercentile times q := by
  have hlen : times.length ≠ 0 := Nat.pos_iff_ne_zero.mp (List.length_pos.mpr hne)
  have hq : 0 ≤ q := le_trans hp hpq
  have hperm := List.perm_insertionSort (· ≤ ·) times
  have hlen2 : (times.insertionSort (· ≤ ·)).length = times.length := hperm.length_eq
  have hsorted : List.Sorted (· ≤ ·) (times.insertionSort (· ≤ ·)) :=
    List.sorted_insertionSort (· ≤ ·) times
  have hn1 : (1:ℚ) ≤ (times.length : ℚ) := by
    exact_mod_cast Nat.one_le_iff_ne_zero.mpr hlen
  have hifl : ⌊p * ((times.length : ℚ) - 1) / 100⌋ ≤ ⌊q * ((times.length : ℚ) - 1) / 100⌋ := by
    apply Int.floor_le_floor
    apply div_le_div_of_nonneg_right _ (by norm_num)
    · exact mul_le_mul_of_nonneg_right hpq (by linarith)
  have hpfl : 0 ≤ ⌊p * ((times.length : ℚ) - 1) / 100⌋ := by
    apply Int.floor_nonneg.mpr
    apply div_nonneg _ (by norm_num)
    exact mul_nonneg hp (by linarith)
  rw [calculatePercentile_eq times hlen p hp, calculatePercentile_eq times hlen q hq]
  split
  case isTrue hpu =>
    split
    case isTrue hqu => exact le_refl _
    case isFalse hqu => omega
  case isFalse hpu =>
    split
    case isTrue hqu =>
      apply sorted_getD_le hsorted _ (by omega)
      omega
    case isFalse hqu =>
      apply sorted_getD_le hsorted _ (by omega)
      omega

/-- The minimum tracking of `collectStep`, projected out of the fold. -/
theorem collect_min_fold (results : List TestResult) (s : Summary) :
    (results.foldl collectStep s).minResponseTime
      = results.foldl
          (fun m r => if m = 0 ∨ r.responseTime < m then r.responseTime else m)
          s.minResponseTime := by
  induction results generalizing s with
  | nil => rfl
  | cons r rs ih =>
    simp only [List.foldl_cons]
    rw [ih]
    rfl

theorem collect_max_fold (results : List TestResult) (s : Summary) :
    (results.foldl collectStep s).maxResponseTime
      = results.foldl
          (fun m r => if r.responseTime > m then r.responseTime else m)
          s.maxResponseTime := by
  induction results generalizing s with
  | nil => rfl
  | cons r rs ih =>
    simp only [List.foldl_cons]
    rw [ih]
    rfl

theorem minFold_spec (l : List ℤ) (hl : ∀ t ∈ l, 0 < t) :
    ∀ (m : ℤ), 0 < m →
      (l.foldl (fun m t => if m = 0 ∨ t < m then t else m) m = m
        ∨ l.foldl (fun m t => if m = 0 ∨ t < m then t else m) m ∈ l)
      ∧ l.foldl (fun m t => if m = 0 ∨ t < m then t else m) m ≤ m
      ∧ ∀ t ∈ l, l.foldl (fun m t => if m = 0 ∨ t < m then t else m) m ≤ t := by
  induction l with
  | nil => intro m hm; simp
  | cons t ts ih =>
    intro m hm
    have ht : 0 < t := hl t (by simp)
    have hts : ∀ x ∈ ts, 0 < x := fun x hx => hl x (by simp [hx])
    simp only [List.foldl_cons]
    by_cases hc : m = 0 ∨ t < m
    · rw [if_pos hc]
      obtain ⟨h1, h2, h3⟩ := ih hts t ht
      refine ⟨?_, ?_, ?_⟩
      · rcases h1 with h | h
        · right; simp [h]
        · right; simp [h]
      · rcases hc with h0 | hlt
        · omega
        · omega
      · intro x hx
        rcases List.mem_cons.mp hx with rfl | hx2
        · exact h2
        · exact h3 x hx2
    · rw [if_neg hc]
      obtain ⟨h1, h2, h3⟩ := ih hts m hm
      refine ⟨?_, h2, ?_⟩
      · rcases h1 with h | h
        · left; exact h
        · right; simp [h]
      · intro x hx
        rcases List.mem_cons.mp hx with rfl | hx2
        · push_neg at hc
          omega
        · exact h3 x hx2

theorem minFold_from_zero (l : List ℤ) (hl : ∀ t ∈ l, 0 < t) (hne : l ≠ []) :
    ∀ t ∈ l, l.foldl (fun m t => if m = 0 ∨ t < m then t else m) 0 ≤ t := by
  cases l with
  | nil => exact absurd rfl hne
  | cons t ts =>
    have ht : 0 < t := hl t (by simp)
    have hts : ∀ x ∈ ts, 0 < x := fun x hx => hl x (by simp [hx])
    simp only [List.foldl_cons, if_pos (Or.inl rfl)]
    obtain ⟨-, h2, h3⟩ := minFold_spec ts hts t ht
    intro x hx
    rcases List.mem_cons.mp hx with rfl | hx2
    · exact h2
    · exact h3 x hx2

theorem maxFold_spec (l : List ℤ) :
    ∀ (m : ℤ), m ≤ l.foldl (fun m t => if t > m then t else m) m
      ∧ ∀ t ∈ l, t ≤ l.foldl (fun m t => if t > m then t else m) m := by
  induction l with
  | nil => intro m; simp
  | cons t ts ih =>
    intro m
    simp only [List.foldl_cons]
    by_cases hc : t > m
    · rw [if_pos hc]
      obtain ⟨h1, h2⟩ := ih t
      refine ⟨by omega, ?_⟩
      intro x hx
      rcases List.mem_cons.mp hx with rfl | hx2
      · exact h1
      · exact h2 x hx2
    · rw [if_neg hc]
      obtain ⟨h1, h2⟩ := ih m
      refine ⟨h1, ?_⟩
      intro x hx
      rcases List.mem_cons.mp hx with rfl | hx2
      · omega
      · exact h2 x hx2

theorem collectResults_fields (results : List TestResult) (hne : results ≠ []) :
    (collectResults results).minResponseTime = (results.foldl collectStep {}).minResponseTime
    ∧ (collectResults results).maxResponseTime = (results.foldl collectStep {}).maxResponseTime
    ∧ (collectResults results).p50ResponseTime
        = calculatePercentile (results.map (fun r => r.responseTime)) 50
    ∧ (collectResults results).p95ResponseTime
        = calculatePercentile (results.map (fun r => r.responseTime)) 95
    ∧ (collectResults results).p99ResponseTime
        = calculatePercentile (results.map (fun r => r.responseTime)) 99 := by
  have hpos : 0 < results.length := List.length_pos.mpr hne
  refine ⟨?_, ?_, ?_, ?_, ?_⟩ <;>
    (simp only [collectResults]; rw [dif_pos hpos])

def resultsC8 : List TestResult :=
  [{ testName := "t", url := "u", method := "GET", statusCode := 0, responseTime := 0,
     success := false, error := "request failed", timestamp := 0 },
   { testName := "t", url := "u", method := "GET", statusCode := 200, responseTime := 5,
     success := true, error := "", timestamp := 1 }]

/-- C8 counterexample: a result stream containing a zero response time
(as produced when building the request fails) defeats the
zero-as-unset minimum tracking: on this stream the final minimum is 5
while P50 is 0, so `min ≤ P50` fails. -/
theorem summary_min_above_p50_counterexample :
    ¬ ((collectResults resultsC8).minResponseTime
        ≤ (collectResults resultsC8).p50ResponseTime) := by
  have hne : resultsC8 ≠ [] := by simp [resultsC8]
  obtain ⟨hmin, -, h50, -, -⟩ := collectResults_fields resultsC8 hne
  rw [hmin, h50]
  have hfold : (resultsC8.foldl collectStep {}).minResponseTime = 5 := by rfl
  have hmap : resultsC8.map (fun r => r.responseTime) = [0, 5] := rfl
  have hcalc : calculatePercentile [0, 5] 50 = 0 := by
    norm_num [calculatePercentile, goTrunc, List.insertionSort, List.orderedInsert]
  rw [hfold, hmap, hcalc]
  omega

/-- C8 amended: over a nonempty result stream in which every response
time is positive, the aggregated statistics satisfy
`min ≤ P50 ≤ P95 ≤ P99 ≤ max`.  (With a zero response time present
the zero-as-unset minimum tracking can leave the minimum above the
percentiles — see the counterexample.) -/
theorem summary_percentiles_ordered (results : List TestResult)
    (hne : results ≠ []) (hpos : ∀ r ∈ results, 0 < r.responseTime) :
    (collectResults results).minResponseTime ≤ (collectResults results).p50ResponseTime
    ∧ (collectResults results).p50ResponseTime ≤ (collectResults results).p95ResponseTime
    ∧ (collectResults results).p95ResponseTime ≤ (collectResults results).p99ResponseTime
    ∧ (collectResults results).p99ResponseTime ≤ (collectResults results).maxResponseTime := by
  obtain ⟨hmin, hmax, h50, h95, h99⟩ := collectResults_fields results hne
  have htne : results.map (fun r => r.responseTime) ≠ [] := by
    simpa using hne
  have htpos : ∀ t ∈ results.map (fun r => r.responseTime), 0 < t := by
    intro t ht
    obtain ⟨r, hr, rfl⟩ := List.mem_map.mp ht
    exact hpos r hr
  refine ⟨?_, ?_, ?_, ?_⟩
  · rw [hmin, h50, collect_min_fold]
    have hdef : (({} : Summary)).minResponseTime = 0 := rfl
    rw [hdef]
    have hfold : results.foldl
          (fun m r => if m = 0 ∨ r.responseTime < m then r.responseTime else m) 0
        = (results.map (fun r => r.responseTime)).foldl
            (fun m t => if m = 0 ∨ t < m then t else m) 0 := by
      rw [List.foldl_map]
    rw [hfold]
    exact minFold_from_zero _ htpos htne _
      (calculatePercentile_mem _ htne 50 (by norm_num))
  · rw [h50, h95]
    exact calculatePercentile_mono _ htne (by norm_num) (by norm_num)
  · rw [h95, h99]
    exact calculatePercentile_mono _ htne (by norm_num) (by norm_num)
  · rw [h99, hmax, collect_max_fold]
    have hdef : (({} : Summary)).maxResponseTime = 0 := rfl
    rw [hdef]
    have hfold : results.foldl
          (fun m r => if r.responseTime > m then r.responseTime else m) 0
        = (results.map (fun r => r.responseTime)).foldl
            (fun m t => if t > m then t else m) 0 := by
      rw [List.foldl_map]
    rw [hfold]
    exact (maxFold_spec _ 0).2 _
      (calculatePercentile_mem _ htne 99 (by norm_num))

def resultsC8W : List TestResult :=
  [{ testName := "a", url := "u", method := "GET", statusCode := 200, responseTime := 5,
     success := true, error := "", timestamp := 0 },
   { testName := "a", url := "u", method := "GET", statusCode := 200, responseTime := 7,
     success := true, error := "", timestamp := 1 }]

theorem summary_percentiles_ordered_witness :
    (collectResults resultsC8W).minResponseTime ≤ (collectResults resultsC8W).p50ResponseTime
    ∧ (collectResults resultsC8W).p50ResponseTime ≤ (collectResults resultsC8W).p95ResponseTime
    ∧ (collectResults resultsC8W).p95ResponseTime ≤ (collectResults resultsC8W).p99ResponseTime
    ∧ (collectResults resultsC8W).p99ResponseTime ≤ (collectResults resultsC8W).maxResponseTime := by
  apply summary_percentiles_ordered resultsC8W (by simp [resultsC8W])
  intro r hr
  rcases List.mem_cons.mp hr with rfl | hr2
  · norm_num
  · rcases List.mem_cons.mp hr2 with rfl | hr3
    · norm_num
    · simp at hr3

/-!  The assertion evaluator (assertion.go).  The two external
libraries it calls — `regexp` for the `matches` operator and
`time.ParseDuration` for duration strings — are injected as functions
(`none` models a parse/compile failure), exactly as the evaluator
observes them. -/

/-- `models.Assertion`: (kind, target, operator, value). -/
structure Assertion where
  type : String
  target : String
  operator : String
  value : GoVal

/-- The external libraries the evaluator consults: `regexp` compile
and match (`none` = compile error), and `time.ParseDuration`
(`none` = malformed duration; durations in nanoseconds). -/
structure ExternalLibs where
  regexMatch : String → String → Option Bool
  parseDuration : String → Option ℤ

/-- `assertion.Context`. -/
structure AssertionContext where
  statusCode : ℤ
  responseTime : ℤ
  body : BodyBytes
  headers : HeaderGet

/-- `assertion.Result`. -/
structure AssertionResult where
  assertion : Assertion
  passed : Bool
  actualValue : Option GoVal := none
  message : String := ""

/-- `toFloat64` (assertion.go:457-472): numeric promotion; the five Go
numeric cases collapse onto the two numeric constructors. -/
def toFloat64 : GoVal → Option ℚ
  | .float q => some q
  | .int n => some ((n : ℤ) : ℚ)
  | _ => none

/-- `equals` (assertion.go:363-380): numeric comparison when both
promote, boolean comparison when both are bools, else comparison of
the `%v` renderings. -/
def goEquals (a b : GoVal) : Bool :=
  match toFloat64 a, toFloat64 b with
  | some x, some y => decide (x = y)
  | _, _ =>
    match a, b with
    | .bool x, .bool y => x == y
    | _, _ => goFormat a == goFormat b

def listStartsWith : List Char → List Char → Bool
  | _, [] => true
  | [], _ :: _ => false
  | a :: as, b :: bs => a == b && listStartsWith as bs

def containsAux (needle : List Char) : List Char → Bool
  | [] => listStartsWith [] needle
  | c :: cs => listStartsWith (c :: cs) needle || containsAux needle cs

/-- `strings.Contains`. -/
def goContains (hay needle : String) : Bool := containsAux needle.data hay.data

/-- `strings.HasPrefix`. -/
def goStartsWith (s pre : String) : Bool := listStartsWith s.data pre.data

/-- `strings.HasSuffix`. -/
def goEndsWith (s suf : String) : Bool := listStartsWith s.data.reverse suf.data.reverse

/-- The shared failure of the four numeric operators. -/
def numericCompare (cmp : ℚ → ℚ → Bool) (actual expected : GoVal) : Except String Bool :=
  match toFloat64 actual, toFloat64 expected with
  | some x, some y => .ok (cmp x y)
  | _, _ => .error ("cannot compare non-numeric values: "
      ++ goFormat actual ++ ", " ++ goFormat expected)

/-- `compare` (assertion.go:315-340). -/
def goCompare (ext : ExternalLibs) (operator : String) (actual expected : GoVal) :
    Except String Bool :=
  match operator with
  | "eq" => .ok (goEquals actual expected)
  | "neq" => .ok (!goEquals actual expected)
  | "gt" => numericCompare (fun x y => decide (x > y)) actual expected
  | "gte" => numericCompare (fun x y => decide (x ≥ y)) actual expected
  | "lt" => numericCompare (fun x y => decide (x < y)) actual expected
  | "lte" => numericCompare (fun x y => decide (x ≤ y)) actual expected
  | "contains" => .ok (goContains (goFormat actual) (goFormat expected))
  | "starts_with" => .ok (goStartsWith (goFormat actual) (goFormat expected))
  | "ends_with" => .ok (goEndsWith (goFormat actual) (goFormat expected))
  | "matches" =>
    match ext.regexMatch (goFormat expected) (goFormat actual) with
    | none => .error "invalid regex pattern"
    | some b => .ok b
  | _ => .error ("unknown operator: " ++ operator)

/-- `compareDurations` (assertion.go:343-360). -/
def compareDurations (operator : String) (actual expected : ℤ) : Except String Bool :=
  match operator with
  | "eq" => .ok (decide (actual = expected))
  | "neq" => .ok (decide (actual ≠ expected))
  | "gt" => .ok (decide (actual > expected))
  | "gte" => .ok (decide (actual ≥ expected))
  | "lt" => .ok (decide (actual < expected))
  | "lte" => .ok (decide (actual ≤ expected))
  | _ => .error ("unknown operator for duration: " ++ operator)

/-- The actual-value extraction of `evaluateJSONPath`
(assertion.go:130-144): numbers become float64, arrays and objects
their raw JSON text. -/
def gjsonValueToGoVal : Json → GoVal
  | .str s => .str s
  | .num q => .float q
  | .bool b => .bool b
  | .null => .null
  | j => .str (serializeJson j)

/-- `evaluateJSONPath` (assertion.go:86-161).  Note the order of the
guards: an empty body fails before the `exists`/`not_exists` handling
is reached. -/
def evaluateJSONPath (ext : ExternalLibs) (a : Assertion) (ctx : AssertionContext) :
    AssertionResult :=
  match ctx.body with
  | .empty => { assertion := a, passed := false, message := "empty response body" }
  | .invalid _ => { assertion := a, passed := false, message := "invalid JSON in response body" }
  | .valid j =>
    if a.operator = "exists" || a.operator = "not_exists" then
      let ex := (gjsonGet j a.target).isSome
      if a.operator = "exists" then
        { assertion := a, passed := ex, actualValue := some (.bool ex),
          message := if ex then ""
            else "path \x27" ++ a.target ++ "\x27 not found in response" }
      else
        { assertion := a, passed := !ex, actualValue := some (.bool ex),
          message := if ex then "path \x27" ++ a.target ++ "\x27 exists but should not"
            else "" }
    else
      match gjsonGet j a.target with
      | none => { assertion := a, passed := false,
                  message := "path \x27" ++ a.target ++ "\x27 not found in response" }
      | some value =>
        let actual := gjsonValueToGoVal value
        match goCompare ext a.operator actual a.value with
        | .error e => { assertion := a, passed := false,
                        actualValue := some actual, message := e }
        | .ok passed =>
          { assertion := a, passed := passed, actualValue := some actual,
            message := if passed then ""
              else "assertion failed: " ++ a.target ++ " " ++ a.operator ++ " "
                ++ goFormat a.value ++ ", got " ++ goFormat actual }

/-- `evaluateResponseTime` (assertion.go:164-198). -/
def evaluateResponseTime (a : Assertion) (ext : ExternalLibs) (ctx : AssertionContext) :
    AssertionResult :=
  match a.value with
  | .str valueStr =>
    match ext.parseDuration valueStr with
    | none => { assertion := a, passed := false, actualValue := some (.int ctx.responseTime),
                message := "invalid duration format" }
    | some expected =>
      match compareDurations a.operator ctx.responseTime expected with
      | .error e => { assertion := a, passed := false,
                      actualValue := some (.int ctx.responseTime), message := e }
      | .ok passed =>
        { assertion := a, passed := passed, actualValue := some (.int ctx.responseTime),
          message := if passed then "" else "response time assertion failed" }
  | v => { assertion := a, passed := false, actualValue := some (.int ctx.responseTime),
           message := "invalid duration value: " ++ goFormat v }

/-- `evaluateStatus` (assertion.go:201-228). -/
def evaluateStatus (a : Assertion) (ext : ExternalLibs) (ctx : AssertionContext) :
    AssertionResult :=
  match a.value with
  | .float expected =>
    match goCompare ext a.operator (.float ((ctx.statusCode : ℤ) : ℚ)) (.float expected) with
    | .error e => { assertion := a, passed := false,
                    actualValue := some (.int ctx.statusCode), message := e }
    | .ok passed =>
      { assertion := a, passed := passed, actualValue := some (.int ctx.statusCode),
        message := if passed then "" else "status assertion failed" }
  | v => { assertion := a, passed := false, actualValue := some (.int ctx.statusCode),
           message := "invalid status code value: " ++ goFormat v }

/-- `evaluateHeader` (assertion.go:231-283). -/
def evaluateHeader (a : Assertion) (ext : ExternalLibs) (ctx : AssertionContext) :
    AssertionResult :=
  match ctx.headers with
  | none => { assertion := a, passed := false, message := "no headers in response" }
  | some get =>
    let headerValue := get a.target
    if a.operator = "exists" || a.operator = "not_exists" then
      let ex := headerValue ≠ ""
      if a.operator = "exists" then
        { assertion := a, passed := decide ex, actualValue := some (.str headerValue),
          message := if headerValue = "" then
            "header \x27" ++ a.target ++ "\x27 not found" else "" }
      else
        { assertion := a, passed := !(decide ex), actualValue := some (.str headerValue),
          message := if headerValue = "" then ""
            else "header \x27" ++ a.target ++ "\x27 exists but should not" }
    else if headerValue = "" then
      { assertion := a, passed := false, actualValue := some (.str headerValue),
        message := "header \x27" ++ a.target ++ "\x27 not found" }
    else
      match goCompare ext a.operator (.str headerValue) a.value with
      | .error e => { assertion := a, passed := false,
                      actualValue := some (.str headerValue), message := e }
      | .ok passed =>
        { assertion := a, passed := passed, actualValue := some (.str headerValue),
          message := if passed then "" else "header assertion failed" }

/-- Length of the response body bytes as `len(ctx.Body)` observes it
(the canonical text length for a parsed body; no theorem depends on
it). -/
def bodyLen : BodyBytes → ℕ
  | .empty => 0
  | .invalid s => s.length
  | .valid j => (serializeJson j).length

/-- `evaluateBodySize` (assertion.go:286-312). -/
def evaluateBodySize (a : Assertion) (ext : ExternalLibs) (ctx : AssertionContext) :
    AssertionResult :=
  match a.value with
  | .float expected =>
    match goCompare ext a.operator (.float ((bodyLen ctx.body : ℕ) : ℚ)) (.float expected) with
    | .error e => { assertion := a, passed := false,
                    actualValue := some (.int (bodyLen ctx.body : ℕ)), message := e }
    | .ok passed =>
      { assertion := a, passed := passed, actualValue := some (.int (bodyLen ctx.body : ℕ)),
        message := if passed then "" else "body size assertion failed" }
  | v => { assertion := a, passed := false, actualValue := some (.int (bodyLen ctx.body : ℕ)),
           message := "invalid body size value: " ++ goFormat v }

/-- `Evaluate` (assertion.go:62-83): dispatch on the assertion kind. -/
def Evaluate (ext : ExternalLibs) (a : Assertion) (ctx : AssertionContext) :
    AssertionResult :=
  match a.type with
  | "json_path" => evaluateJSONPath ext a ctx
  | "response_time" => evaluateResponseTime a ext ctx
  | "status" => evaluateStatus a ext ctx
  | "header" => evaluateHeader a ext ctx
  | "body_size" => evaluateBodySize a ext ctx
  | ty => { assertion := a, passed := false, message := "unknown assertion type: " ++ ty }

/-- `EvaluateAll` (assertion.go:53-59): every assertion is evaluated,
independently. -/
def EvaluateAll (ext : ExternalLibs) (assertions : List Assertion)
    (ctx : AssertionContext) : List AssertionResult :=
  assertions.map (fun a => Evaluate ext a ctx)

def extNone : ExternalLibs := { regexMatch := fun _ _ => none, parseDuration := fun _ => none }

/-- C3 counterexample: a `json_path` assertion with operator
`not_exists` evaluated against an empty response body FAILS — the
empty-body guard of `evaluateJSONPath` returns before the operator is
consulted — whereas the claim says it passes. -/
theorem jsonPath_empty_not_exists_counterexample :
    (evaluateJSONPath extNone
        { type := "json_path", target := "x", operator := "not_exists", value := .null }
        { statusCode := 200, responseTime := 0, body := .empty, headers := none }).passed
      = false := rfl

/-- C3 amended: a `json_path` assertion evaluated against an empty
response body fails for every operator, including `not_exists`. -/
theorem jsonPath_empty_body_always_fails (ext : ExternalLibs) (a : Assertion)
    (st rt : ℤ) (hdrs : HeaderGet) :
    (evaluateJSONPath ext a
        { statusCode := st, responseTime := rt, body := .empty, headers := hdrs }).passed
      = false := rfl

/-!  The request executor (engine.go:293-491) and the iteration
scheduler (engine.go:129-148). -/

/-- The global defaults of `models.Config` the embedded operations
consult. -/
structure GlobalConfig where
  baseURL : String
  iterations : ℕ

/-- The `models.TestCase` fields the embedded operations consult. -/
structure TestCase where
  name : String
  method : String
  path : String
  expectedStatus : List ℤ
  iterations : ℕ
  body : Option GoVal := none
  assertions : List Assertion := []

structure Config where
  global : GlobalConfig
  tests : List TestCase

/-- `isExpectedStatus` (engine.go:484-491): membership of the status
code in the expected list. -/
def isExpectedStatus (statusCode : ℤ) (expectedStatuses : List ℤ) : Bool :=
  expectedStatuses.any (fun expected => statusCode == expected)

/-- Modelled from the spec: the completion path of `executeTest`.  The
success determination by status membership is engine.go:425 and
`isExpectedStatus`; the assertion step (spec section 4.7 step 8 —
evaluate all defined assertions, a single failure marks the result
failed, each failing message recorded) is missing from the engine
snapshot in the repository, which predates assertion integration; that
glue follows the spec words, calling the in-repo assertion
evaluator. -/
def executeTestCompleted (ext : ExternalLibs) (tc : TestCase) (url : String)
    (statusCode responseTime timestamp : ℤ) (body : BodyBytes)
    (headers : HeaderGet) : TestResult :=
  let success := isExpectedStatus statusCode tc.expectedStatus
  let base : TestResult :=
    { testName := tc.name, url := url, method := tc.method, statusCode := statusCode,
      responseTime := responseTime, success := success,
      error := if success then "" else "Unexpected status code", timestamp := timestamp }
  if tc.assertions.isEmpty then base
  else
    let ars := EvaluateAll ext tc.assertions
      { statusCode := statusCode, responseTime := responseTime, body := body,
        headers := headers }
    let failed := ars.filter (fun r => !r.passed)
    { base with
      success := success && failed.isEmpty
      assertionsPassed := (ars.filter (fun r => r.passed)).length
      assertionsFailed := failed.length
      failedAssertions := failed.map (fun r => r.message) }

theorem filter_not_isEmpty_eq_all (l : List AssertionResult) :
    (l.filter (fun r => !r.passed)).isEmpty = l.all (fun r => r.passed) := by
  induction l with
  | nil => rfl
  | cons a t ih =>
    by_cases h : a.passed <;>
      simp [List.filter_cons, h, List.all_cons, ih, List.isEmpty_cons]

theorem length_filter_add_not (l : List AssertionResult) :
    (l.filter (fun r => r.passed)).length + (l.filter (fun r => !r.passed)).length
      = l.length := by
  induction l with
  | nil => rfl
  | cons a t ih =>
    by_cases h : a.passed <;> simp [List.filter_cons, h] <;> omega

/-- C1: for a completed exchange the success flag equals membership of
the status code in the expected set conjoined with all assertions
passing (so a single assertion failure marks the result failed); every
defined assertion is evaluated (the pass/fail tallies sum to the
assertion count); and exactly the failing messages are recorded. -/
theorem executeTest_success_and_assertions (ext : ExternalLibs) (tc : TestCase)
    (url : String) (statusCode responseTime timestamp : ℤ) (body : BodyBytes)
    (headers : HeaderGet) :
    (executeTestCompleted ext tc url statusCode responseTime timestamp body headers).success
      = (isExpectedStatus statusCode tc.expectedStatus
          && (EvaluateAll ext tc.assertions
                { statusCode := statusCode, responseTime := responseTime, body := body,
                  headers := headers }).all (fun r => r.passed))
    ∧ (executeTestCompleted ext tc url statusCode responseTime timestamp body
          headers).assertionsPassed
        + (executeTestCompleted ext tc url statusCode responseTime timestamp body
            headers).assertionsFailed
      = tc.assertions.length
    ∧ (executeTestCompleted ext tc url statusCode responseTime timestamp body
          headers).failedAssertions
      = ((EvaluateAll ext tc.assertions
            { statusCode := statusCode, responseTime := responseTime, body := body,
              headers := headers }).filter (fun r => !r.passed)).map
          (fun r => r.message) := by
  by_cases h : tc.assertions.isEmpty
  · have hnil : tc.assertions = [] := List.isEmpty_iff.mp h
    refine ⟨?_, ?_, ?_⟩ <;> simp [executeTestCompleted, h, hnil, EvaluateAll]
  · have hlen : (EvaluateAll ext tc.assertions
        { statusCode := statusCode, responseTime := responseTime, body := body,
          headers := headers }).length = tc.assertions.length := by
      simp [EvaluateAll]
    refine ⟨?_, ?_, ?_⟩
    · simp only [executeTestCompleted, if_neg h]
      rw [filter_not_isEmpty_eq_all]
    · simp only [executeTestCompleted, if_neg h]
      rw [length_filter_add_not, hlen]
    · simp only [executeTestCompleted, if_neg h]

/-- `strings.TrimSuffix(s, "/")`: drop one trailing slash. -/
def trimTrailingSlash (s : String) : String :=
  if s.data.getLast? = some '/' then String.mk s.data.dropLast else s

/-- `strings.TrimPrefix(s, "/")` applied at engine.go:137: drop one
leading slash. -/
def trimLeadingSlash (s : String) : String :=
  match s.data with
  | '/' :: rest => String.mk rest
  | _ => s

/-- `engine.Job`: one unit of work; the data row is the spec-modelled
extension (the snapshot Job has no row). -/
structure Job where
  testCase : TestCase
  url : String
  dataRow : Option (List (String × GoVal)) := none

/-- Effective iteration count (engine.go:131-134): the test override
when non-zero, else the global count. -/
def effectiveIterations (cfg : Config) (t : TestCase) : ℕ :=
  if t.iterations = 0 then cfg.global.iterations else t.iterations

/-- The per-test loop body of `generateIterationBasedJobs`
(engine.go:130-147): compose the URL and emit one job per iteration. -/
def jobsForTest (cfg : Config) (t : TestCase) : List Job :=
  let fullURL := trimTrailingSlash cfg.global.baseURL ++ "/" ++ trimLeadingSlash t.path
  (List.range (effectiveIterations cfg t)).map (fun _ => { testCase := t, url := fullURL })

/-- `generateIterationBasedJobs` (engine.go:129-148). -/
def generateIterationBasedJobs (cfg : Config) : List Job :=
  cfg.tests.flatMap (fun t => jobsForTest cfg t)

/-- Modelled from the spec: the data-row expansion of the iteration
scheduler.  Missing from the sources: the engine snapshot in the
repository predates data-driven testing (only its tests and
documentation are present).  Spec section 4.5: in iteration mode a
test with data rows emits `iterations × |rows|` jobs, one per
(iteration, row) pair. -/
def generateIterationJobsWithRows (cfg : Config) (t : TestCase)
    (rows : List (List (String × GoVal))) : List Job :=
  let fullURL := trimTrailingSlash cfg.global.baseURL ++ "/" ++ trimLeadingSlash t.path
  (List.range (effectiveIterations cfg t)).flatMap
    (fun _ => rows.map (fun row => { testCase := t, url := fullURL, dataRow := some row }))

theorem sum_const_range (n k : ℕ) : ((List.range n).map (fun _ => k)).sum = n * k := by
  induction n with
  | zero => simp
  | succ m ih =>
    rw [List.range_succ, List.map_append, List.sum_append]
    simp [ih, Nat.succ_mul]

theorem filter_flatMap_by_name (tests : List TestCase) (f : TestCase → List Job)
    (hf : ∀ u, ∀ j ∈ f u, j.testCase.name = u.name)
    (hnodup : (tests.map (fun t => t.name)).Nodup)
    (t : TestCase) (ht : t ∈ tests) :
    ((tests.flatMap f).filter (fun j => j.testCase.name == t.name)).length
      = (f t).length := by
  induction tests with
  | nil => simp at ht
  | cons u us ih =>
    rw [List.flatMap_cons, List.filter_append, List.length_append]
    simp only [List.map_cons, List.nodup_cons] at hnodup
    obtain ⟨hu, hus⟩ := hnodup
    rcases List.mem_cons.mp ht with rfl | htus
    · have h1 : (f t).filter (fun j => j.testCase.name == t.name) = f t := by
        apply List.filter_eq_self.mpr
        intro j hj
        simp [hf t j hj]
      have h2 : ((us.flatMap f).filter (fun j => j.testCase.name == t.name)).length = 0 := by
        rw [List.length_eq_zero]
        apply List.filter_eq_nil_iff.mpr
        intro j hj
        obtain ⟨v, hv, hjv⟩ := List.mem_flatMap.mp hj
        have hname : j.testCase.name = v.name := hf v j hjv
        have hvne : v.name ≠ t.name := by
          intro he
          exact hu (he ▸ List.mem_map_of_mem (fun t => t.name) hv)
        simp [hname, hvne]
      rw [h1, h2]
      omega
    · have hne : u.name ≠ t.name := by
        intro he
        exact hu (he ▸ List.mem_map_of_mem (fun t => t.name) htus)
      have h1 : ((f u).filter (fun j => j.testCase.name == t.name)).length = 0 := by
        rw [List.length_eq_zero]
        apply List.filter_eq_nil_iff.mpr
        intro j hj
        have hname : j.testCase.name = u.name := hf u j hj
        simp [hname, hne]
      rw [h1, ih hus htus]
      omega

/-- C4: in iteration mode each test contributes exactly its effective
iteration count of jobs (test-level iterations overriding the global
count when non-zero); and, with the spec-modelled data-row expansion,
a test with `r` rows yields `iterations × r` jobs, one per
(iteration, row) pair. -/
theorem iteration_mode_job_counts (cfg : Config)
    (hnodup : (cfg.tests.map (fun t => t.name)).Nodup)
    (t : TestCase) (ht : t ∈ cfg.tests) :
    ((generateIterationBasedJobs cfg).filter
        (fun j => j.testCase.name == t.name)).length = effectiveIterations cfg t
    ∧ ∀ rows : List (List (String × GoVal)),
        (generateIterationJobsWithRows cfg t rows).length
          = effectiveIterations cfg t * rows.length
        ∧ (generateIterationJobsWithRows cfg t rows).map (fun j => j.dataRow)
          = (List.range (effectiveIterations cfg t)).flatMap
              (fun _ => rows.map (fun row => some row)) := by
  constructor
  · simp only [generateIterationBasedJobs]
    rw [filter_flatMap_by_name cfg.tests (jobsForTest cfg) ?hf hnodup t ht]
    case hf =>
      intro u j hj
      simp only [jobsForTest, List.mem_map] at hj
      obtain ⟨i, -, rfl⟩ := hj
      rfl
    simp [jobsForTest]
  · intro rows
    constructor
    · simp only [generateIterationJobsWithRows]
      rw [List.length_flatMap]
      simp only [Function.comp_def, List.length_map]
      rw [sum_const_range]
    · simp only [generateIterationJobsWithRows]
      rw [List.map_flatMap]
      simp only [List.map_map]
      rfl

def tcA : TestCase :=
  { name := "a", method := "GET", path := "/x", expectedStatus := [200], iterations := 0 }

def tcB : TestCase :=
  { name := "b", method := "GET", path := "/y", expectedStatus := [200], iterations := 3 }

def cfgW : Config :=
  { global := { baseURL := "http://h/", iterations := 2 }, tests := [tcA, tcB] }

theorem iteration_mode_job_counts_witness :
    ((generateIterationBasedJobs cfgW).filter
        (fun j => j.testCase.name == "b")).length = 3
    ∧ (generateIterationJobsWithRows cfgW tcB
        [[("k", .str "v")], [("k", .str "w")]]).length = 6 := by
  have h := iteration_mode_job_counts cfgW (by decide) tcB (by simp [cfgW])
  constructor
  · have h1 := h.1
    simpa [cfgW, tcB, effectiveIterations] using h1
  · have h2 := (h.2 [[("k", .str "v")], [("k", .str "w")]]).1
    simpa [cfgW, tcB, effectiveIterations] using h2

/-!  The comparison (tap-compare) evaluator: `evaluateFieldTolerance`
and `parseTolerance` (evaluator.go:170-246). -/

def digitsVal (l : List Char) : ℕ := l.foldl (fun a c => a * 10 + (c.toNat - 48)) 0

/-- `fmt.Sscanf` with `%f`: parse a leading decimal number (optional
sign, digits, optional fraction); on failure the scanned variable
keeps its zero value, which `parseTolerance` uses since it ignores the
error.  Exponent forms are not modelled (no theorem depends on
them). -/
def parseFloatCore (l : List Char) : Option ℚ :=
  let signAndRest : ℚ × List Char :=
    match l with
    | '-' :: r => (-1, r)
    | '+' :: r => (1, r)
    | r => (1, r)
  let ip := signAndRest.2.takeWhile Char.isDigit
  let l2 := signAndRest.2.dropWhile Char.isDigit
  if ip.isEmpty then none
  else
    match l2 with
    | '.' :: r =>
      let fp := r.takeWhile Char.isDigit
      some (signAndRest.1 * ((digitsVal ip : ℚ) + (digitsVal fp : ℚ) / ((10 : ℚ) ^ fp.length)))
    | _ => some (signAndRest.1 * (digitsVal ip : ℚ))

def parseFloatPre (s : String) : ℚ := (parseFloatCore s.data).getD 0

/-- `toleranceValue` (evaluator.go:219-222). -/
structure ToleranceValue where
  value : ℚ
  isPercentage : Bool

/-- `parseTolerance` (evaluator.go:224-246): a float strictly between
0 and 1 is a percentage; an int is absolute; a string with a trailing
`%` is a percentage divided by 100, otherwise an absolute number; any
other dynamic type is zero absolute. -/
def parseTolerance (val : GoVal) : ToleranceValue :=
  match val with
  | .float v => if 0 < v ∧ v < 1 then ⟨v, true⟩ else ⟨v, false⟩
  | .int v => ⟨((v : ℤ) : ℚ), false⟩
  | .str s =>
    if s.data.getLast? = some '%' then ⟨parseFloatPre s / 100, true⟩
    else ⟨parseFloatPre s, false⟩
  | _ => ⟨0, false⟩

/-- `gjson.Result.Float()`: numbers directly; strings parsed (zero on
failure); `true` is 1; everything else 0.  Only the number case is
exercised by a theorem. -/
def gjsonFloat : Json → ℚ
  | .num q => q
  | .str s => parseFloatPre s
  | .bool true => 1
  | _ => 0

/-- `models.CompareAssertion`. -/
structure CompareAssertion where
  type : String
  target : String
  operator : String
  tolerance : GoVal

/-- `comparison.Context`: primary and compare responses. -/
structure ComparisonContext where
  primaryStatusCode : ℤ
  primaryResponseTime : ℤ
  primaryBody : BodyBytes
  primaryHeaders : HeaderGet
  compareStatusCode : ℤ
  compareResponseTime : ℤ
  compareBody : BodyBytes
  compareHeaders : HeaderGet

/-- `comparison.AssertionResult`. -/
structure CompareAssertionResult where
  type : String
  target : String
  passed : Bool
  message : String := ""
  primaryValue : Option Json := none
  compareValue : Option Json := none

/-- `evaluateFieldTolerance` (evaluator.go:170-217): both fields must
exist; percentage tolerance compares the relative difference (absolute
magnitude of compare when the primary is zero), absolute tolerance the
absolute difference. -/
def evaluateFieldTolerance (a : CompareAssertion) (ctx : ComparisonContext) :
    CompareAssertionResult :=
  match gjsonGetBytes ctx.primaryBody a.target, gjsonGetBytes ctx.compareBody a.target with
  | some p, some c =>
    let primaryNum := gjsonFloat p
    let compareNum := gjsonFloat c
    let tol := parseTolerance a.tolerance
    if tol.isPercentage then
      let diff := if primaryNum = 0 then |compareNum|
        else |(compareNum - primaryNum) / primaryNum|
      { type := a.type, target := a.target, passed := decide (diff ≤ tol.value),
        primaryValue := some p, compareValue := some c,
        message := if diff ≤ tol.value then ""
          else "field \x27" ++ a.target ++ "\x27 exceeds tolerance" }
    else
      let diff := |compareNum - primaryNum|
      { type := a.type, target := a.target, passed := decide (diff ≤ tol.value),
        primaryValue := some p, compareValue := some c,
        message := if diff ≤ tol.value then ""
          else "field \x27" ++ a.target ++ "\x27 exceeds tolerance" }
  | pv, cv =>
    { type := a.type, target := a.target, passed := false,
      primaryValue := pv, compareValue := cv,
      message := "field \x27" ++ a.target ++ "\x27 missing in one or both responses" }

theorem fieldTolerance_lt_one (a : CompareAssertion) (ctx : ComparisonContext)
    (p c t : ℚ) (hp : gjsonGetBytes ctx.primaryBody a.target = some (.num p))
    (hc : gjsonGetBytes ctx.compareBody a.target = some (.num c))
    (htol : a.tolerance = .float t) (ht : t < 1) :
    (evaluateFieldTolerance a ctx).passed
      = decide ((if p = 0 then |c| else |(c - p) / p|) ≤ t) := by
  unfold evaluateFieldTolerance
  rw [hp, hc]
  simp only [gjsonFloat, htol, parseTolerance]
  by_cases h0 : 0 < t ∧ t < 1
  · rw [if_pos h0]
    rfl
  · rw [if_neg h0]
    have ht0 : t ≤ 0 := by
      rcases lt_or_ge 0 t with h | h
      · exact absurd ⟨h, ht⟩ h0
      · exact h
    show decide (|c - p| ≤ t) = decide ((if p = 0 then |c| else |(c - p) / p|) ≤ t)
    rw [decide_eq_decide]
    by_cases hpz : p = 0
    · subst hpz
      rw [if_pos rfl]
      simp
    · rw [if_neg hpz]
      constructor
      · intro habs
        have h1 : 0 ≤ |c - p| := abs_nonneg _
        have h2 : t = 0 := le_antisymm ht0 (le_trans h1 habs)
        have h3 : c - p = 0 := abs_eq_zero.mp (le_antisymm (h2 ▸ habs) h1)
        rw [h3]
        simp [h2]
      · intro habs
        have h1 : 0 ≤ |(c - p) / p| := abs_nonneg _
        have h2 : t = 0 := le_antisymm ht0 (le_trans h1 habs)
        have h3 : (c - p) / p = 0 := abs_eq_zero.mp (le_antisymm (h2 ▸ habs) h1)
        have h4 : c - p = 0 := by
          rcases div_eq_zero_iff.mp h3 with h | h
          · exact h
          · exact absurd h hpz
        rw [h4]
        simp [h2]

theorem fieldTolerance_ge_one (a : CompareAssertion) (ctx : ComparisonContext)
    (p c t : ℚ) (hp : gjsonGetBytes ctx.primaryBody a.target = some (.num p))
    (hc : gjsonGetBytes ctx.compareBody a.target = some (.num c))
    (htol : a.tolerance = .float t) (ht : 1 ≤ t) :
    (evaluateFieldTolerance a ctx).passed = decide (|c - p| ≤ t) := by
  unfold evaluateFieldTolerance
  rw [hp, hc]
  simp only [gjsonFloat, htol, parseTolerance]
  have h0 : ¬(0 < t ∧ t < 1) := by
    rintro ⟨-, h2⟩
    exact absurd (lt_of_lt_of_le h2 ht) (lt_irrefl t)
  rw [if_neg h0]
  rfl

def ctxS5 : ComparisonContext :=
  { primaryStatusCode := 200, primaryResponseTime := 0,
    primaryBody := .valid (.obj [("value", .num 100)]), primaryHeaders := none,
    compareStatusCode := 200, compareResponseTime := 0,
    compareBody := .valid (.obj [("value", .num 105)]), compareHeaders := none }

def tolAssert (t : ℚ) : CompareAssertion :=
  { type := "field_tolerance", target := "value", operator := "", tolerance := .float t }

/-- C7: a numeric tolerance below 1 is applied as a fraction of the
primary value (absolute magnitude of compare when the primary is
zero), a numeric tolerance of at least 1 as an absolute threshold, and
a trailing-percent string as a fraction; on primary 100 and compare
105 a tolerance of 0.10 passes and 0.02 fails. -/
theorem fieldTolerance_semantics :
    (∀ (a : CompareAssertion) (ctx : ComparisonContext) (p c t : ℚ),
        gjsonGetBytes ctx.primaryBody a.target = some (.num p) →
        gjsonGetBytes ctx.compareBody a.target = some (.num c) →
        a.tolerance = .float t → t < 1 →
        (evaluateFieldTolerance a ctx).passed
          = decide ((if p = 0 then |c| else |(c - p) / p|) ≤ t))
    ∧ (∀ (a : CompareAssertion) (ctx : ComparisonContext) (p c t : ℚ),
        gjsonGetBytes ctx.primaryBody a.target = some (.num p) →
        gjsonGetBytes ctx.compareBody a.target = some (.num c) →
        a.tolerance = .float t → 1 ≤ t →
        (evaluateFieldTolerance a ctx).passed = decide (|c - p| ≤ t))
    ∧ (∀ s : String, s.data.getLast? = some '%' →
        parseTolerance (.str s) = ⟨parseFloatPre s / 100, true⟩)
    ∧ (evaluateFieldTolerance (tolAssert (1/10)) ctxS5).passed = true
    ∧ (evaluateFieldTolerance (tolAssert (1/50)) ctxS5).passed = false := by
  have hget1 : gjsonGetBytes ctxS5.primaryBody "value" = some (.num 100) := rfl
  have hget2 : gjsonGetBytes ctxS5.compareBody "value" = some (.num 105) := rfl
  refine ⟨fieldTolerance_lt_one, fieldTolerance_ge_one, ?_, ?_, ?_⟩
  · intro s hs
    simp [parseTolerance, hs]
  · rw [fieldTolerance_lt_one (tolAssert (1/10)) ctxS5 100 105 (1/10) hget1 hget2 rfl
        (by norm_num)]
    rw [decide_eq_true_eq]
    norm_num
    rw [show |(1:ℚ)/20| = 1/20 from abs_of_nonneg (by norm_num)]
    norm_num
  · rw [fieldTolerance_lt_one (tolAssert (1/50)) ctxS5 100 105 (1/50) hget1 hget2 rfl
        (by norm_num)]
    rw [decide_eq_false_iff_not]
    norm_num
    rw [show |(1:ℚ)/20| = 1/20 from abs_of_nonneg (by norm_num)]
    norm_num

theorem fieldTolerance_semantics_witness :
    (evaluateFieldTolerance (tolAssert 7) ctxS5).passed = true := by
  have h := fieldTolerance_semantics
  rw [h.2.1 (tolAssert 7) ctxS5 100 105 7 rfl rfl rfl (by norm_num)]
  rw [decide_eq_true_eq]
  rw [show ((105:ℚ) - 100) = 5 by norm_num,
      show |(5:ℚ)| = 5 from abs_of_nonneg (by norm_num)]
  norm_num

/-!  The DAG planner (dag.go:19-88): Kahn-style topological layering
with unknown-dependency and cycle detection.  The Go map iterations
make phase-internal order nondeterministic; phases are treated as the
set of their names (modelled in input order), which all claimed
properties are invariant under. -/

/-- `variables.TestDependency`. -/
structure TestDependency where
  name : String
  dependsOn : List String
deriving DecidableEq

/-- The dependency occurrences charged to a name by the in-degree
initialisation (dag.go:38-47): every dependency of every test carrying
that name. -/
def depsOfName (tests : List TestDependency) (n : String) : List String :=
  (tests.filter (fun t => t.name = n)).flatMap (fun t => t.dependsOn)

/-- The in-degree map after the initialisation loops. -/
def initialInDeg (tests : List TestDependency) : String → ℕ :=
  fun n => (depsOfName tests n).length

/-- The first (test name, dependency) pair whose dependency names no
test, in iteration order — the unknown-dependency check of
dag.go:38-47. -/
def firstUnknown (tests : List TestDependency) : Option (String × String) :=
  tests.findSome? (fun t =>
    (t.dependsOn.find? (fun d => !(tests.any (fun u => u.name = d)))).map
      (fun d => (t.name, d)))

/-- The in-degree decrements performed when a phase is processed
(dag.go:69-77): one per occurrence of a processed name among the
dependency occurrences charged to `n`. -/
def decremented (tests : List TestDependency) (inDeg : String → ℕ)
    (phaseNames : List String) : String → ℕ :=
  fun n => inDeg n - ((depsOfName tests n).filter (fun d => phaseNames.contains d)).length

/-- The Kahn loop of `BuildDAG` (dag.go:54-85): repeatedly take the
remaining tests of in-degree zero as one phase; an empty phase with
tests remaining is a cycle. -/
def kahnLoop (tests : List TestDependency) (remaining : List TestDependency)
    (inDeg : String → ℕ) : Except String (List (List String)) :=
  if hrem : remaining.isEmpty then .ok []
  else
    let currentPhase := remaining.filter (fun t => inDeg t.name = 0)
    if hphase : currentPhase.isEmpty then .error "cyclic dependency detected in tests"
    else
      match kahnLoop tests (remaining.filter (fun t => ¬(inDeg t.name = 0)))
          (decremented tests inDeg (currentPhase.map (fun t => t.name))) with
      | .error e => .error e
      | .ok phases => .ok ((currentPhase.map (fun t => t.name)) :: phases)
termination_by remaining.length
decreasing_by
  apply List.length_filter_lt_length_iff_exists.mpr
  have hx : ∃ x, x ∈ remaining.filter (fun t => inDeg t.name = 0) := by
    rcases List.isEmpty_iff.not.mp hphase with h
    cases hcase : remaining.filter (fun t => inDeg t.name = 0) with
    | nil => exact absurd (List.isEmpty_iff.mpr hcase) hphase
    | cons a l => exact ⟨a, hcase ▸ List.mem_cons_self a l⟩
  obtain ⟨x, hx⟩ := hx
  have hmem := List.mem_filter.mp hx
  exact ⟨x, hmem.1, by simpa using hmem.2⟩

/-- `BuildDAG` (dag.go:19-88). -/
def BuildDAG (tests : List TestDependency) : Except String (List (List String)) :=
  if tests.isEmpty then .ok []
  else
    match firstUnknown tests with
    | some td =>
      .error ("unknown dependency: test \x27" ++ td.1 ++ "\x27 depends on \x27"
        ++ td.2 ++ "\x27 which doesn\x27t exist")
    | none => kahnLoop tests tests (initialInDeg tests)

/-- The dependency edge: `a` depends on `b`. -/
def DepEdge (tests : List TestDependency) (a b : String) : Prop :=
  ∃ t ∈ tests, t.name = a ∧ b ∈ t.dependsOn

/-- Non-empty chains of dependency edges. -/
inductive DepPath (tests : List TestDependency) : String → String → Prop where
  | single {a b : String} : DepEdge tests a b → DepPath tests a b
  | cons {a b c : String} : DepEdge tests a b → DepPath tests b c → DepPath tests a c

/-- A cyclic dependency among the tests. -/
def HasCycle (tests : List TestDependency) : Prop := ∃ n, DepPath tests n n

/-- Index of the phase containing a name. -/
def phaseIdx (phases : List (List String)) (n : String) : Option ℕ :=
  phases.findIdx? (fun ph => ph.contains n)

theorem kahnLoop_nil (tests : List TestDependency) (inDeg : String → ℕ) :
    kahnLoop tests [] inDeg = .ok [] := by
  unfold kahnLoop
  rfl

theorem kahnLoop_stall (tests : List TestDependency) (remaining : List TestDependency)
    (inDeg : String → ℕ) (hne : remaining ≠ [])
    (hp : remaining.filter (fun t => inDeg t.name = 0) = []) :
    kahnLoop tests remaining inDeg = .error "cyclic dependency detected in tests" := by
  unfold kahnLoop
  rw [dif_neg (by simpa using hne)]
  rw [dif_pos (by simpa using hp)]

theorem kahnLoop_step (tests : List TestDependency) (remaining : List TestDependency)
    (inDeg : String → ℕ) (hne : remaining ≠ [])
    (hp : remaining.filter (fun t => inDeg t.name = 0) ≠ []) :
    kahnLoop tests remaining inDeg =
      match kahnLoop tests (remaining.filter (fun t => ¬(inDeg t.name = 0)))
          (decremented tests inDeg
            ((remaining.filter (fun t => inDeg t.name = 0)).map (fun t => t.name))) with
      | .error e => .error e
      | .ok phases =>
          .ok (((remaining.filter (fun t => inDeg t.name = 0)).map (fun t => t.name))
            :: phases) := by
  conv_lhs => unfold kahnLoop
  rw [dif_neg (by simpa using hne)]
  rw [dif_neg (by simpa using hp)]

/-- With suite-unique names, the tests carrying a given member name
are exactly that member. -/
theorem filter_name_eq_self {tests : List TestDependency}
    (hnodup : (tests.map (fun t => t.name)).Nodup) {t : TestDependency}
    (ht : t ∈ tests) :
    tests.filter (fun u => u.name = t.name) = [t] := by
  induction tests with
  | nil => simp at ht
  | cons u us ih =>
    simp only [List.map_cons, List.nodup_cons] at hnodup
    obtain ⟨hu, hus⟩ := hnodup
    rcases List.mem_cons.mp ht with rfl | htus
    · rw [List.filter_cons, if_pos (by simp : (decide (t.name = t.name)) = true)]
      congr 1
      apply List.filter_eq_nil_iff.mpr
      intro v hv
      simp only [decide_eq_true_eq]
      intro he
      exact hu (he ▸ List.mem_map_of_mem (fun t => t.name) hv)
    · rw [List.filter_cons]
      have hune : ¬(u.name = t.name) := by
        intro he
        exact hu (he ▸ List.mem_map_of_mem (fun t => t.name) htus)
      simp only [decide_eq_true_eq, if_neg hune]
      exact ih hus htus

theorem depsOfName_eq {tests : List TestDependency}
    (hnodup : (tests.map (fun t => t.name)).Nodup) {t : TestDependency}
    (ht : t ∈ tests) : depsOfName tests t.name = t.dependsOn := by
  unfold depsOfName
  rw [filter_name_eq_self hnodup ht]
  simp

theorem length_filter_split (l : List String) (p q : String → Bool) :
    (l.filter p).length
      = (l.filter (fun x => p x && q x)).length
        + (l.filter (fun x => p x && !q x)).length := by
  induction l with
  | nil => rfl
  | cons a t ih =>
    by_cases hp : p a
    · by_cases hq : q a <;> simp [List.filter_cons, hp, hq] <;> omega
    · simp [List.filter_cons, hp, ih]

theorem contains_iff (l : List String) (a : String) : l.contains a = true ↔ a ∈ l :=
  List.elem_iff

theorem mem_filter_names (remaining : List TestDependency) (p : String → Bool)
    (d : String) :
    d ∈ (remaining.filter (fun t => p t.name)).map (fun t => t.name)
      ↔ (d ∈ remaining.map (fun t => t.name) ∧ p d = true) := by
  simp only [List.mem_map, List.mem_filter]
  constructor
  · rintro ⟨t, ⟨ht, hp⟩, rfl⟩
    exact ⟨⟨t, ht, rfl⟩, hp⟩
  · rintro ⟨⟨t, ht, rfl⟩, hp⟩
    exact ⟨t, ⟨ht, hp⟩, rfl⟩

theorem phaseIdx_cons_mem {ph : List String} {rest : List (List String)} {n : String}
    (h : n ∈ ph) : phaseIdx (ph :: rest) n = some 0 := by
  unfold phaseIdx
  rw [List.findIdx?_cons, if_pos ((contains_iff _ _).mpr h)]

theorem phaseIdx_cons_not_mem {ph : List String} {rest : List (List String)} {n : String}
    (h : ¬ n ∈ ph) :
    phaseIdx (ph :: rest) n = (phaseIdx rest n).map (fun i => i + 1) := by
  unfold phaseIdx
  rw [List.findIdx?_cons, if_neg (fun hc => h ((contains_iff _ _).mp hc)),
    List.findIdx?_succ]

theorem phaseIdx_some_of_mem_flatten {phases : List (List String)} {n : String}
    (h : n ∈ phases.flatten) : ∃ i, phaseIdx phases n = some i := by
  induction phases with
  | nil => simp at h
  | cons ph rest ih =>
    by_cases hp : n ∈ ph
    · exact ⟨0, phaseIdx_cons_mem hp⟩
    · rw [List.flatten_cons, List.mem_append] at h
      rcases h with h | h
      · exact absurd h hp
      · obtain ⟨i, hi⟩ := ih h
        exact ⟨i + 1, by rw [phaseIdx_cons_not_mem hp, hi]; rfl⟩

/-- The in-degree invariant is preserved by one Kahn step: after
removing the zero-degree phase and performing the decrements, the
in-degree of each surviving test again counts its dependency
occurrences among the surviving names. -/
theorem inv_preserved (tests remaining : List TestDependency) (inDeg : String → ℕ)
    (hdeg : ∀ t ∈ remaining, inDeg t.name
      = ((depsOfName tests t.name).filter
          (fun d => (remaining.map (fun t => t.name)).contains d)).length) :
    ∀ t ∈ remaining.filter (fun t => ¬(inDeg t.name = 0)),
      decremented tests inDeg
          ((remaining.filter (fun t => inDeg t.name = 0)).map (fun t => t.name)) t.name
        = ((depsOfName tests t.name).filter
            (fun d => ((remaining.filter (fun t => ¬(inDeg t.name = 0))).map
              (fun t => t.name)).contains d)).length := by
  intro t ht
  have htR : t ∈ remaining := (List.mem_filter.mp ht).1
  unfold decremented
  rw [hdeg t htR]
  have hsplit := length_filter_split (depsOfName tests t.name)
    (fun d => (remaining.map (fun t => t.name)).contains d)
    (fun d => decide (inDeg d = 0))
  have h1 : (depsOfName tests t.name).filter
        (fun d => (remaining.map (fun t => t.name)).contains d && decide (inDeg d = 0))
      = (depsOfName tests t.name).filter
        (fun d => ((remaining.filter (fun t => inDeg t.name = 0)).map
          (fun t => t.name)).contains d) := by
    apply List.filter_congr
    intro d _
    rw [Bool.eq_iff_iff]
    simp only [Bool.and_eq_true, decide_eq_true_eq, contains_iff, mem_filter_names,
      List.mem_map, List.mem_filter]
    constructor
    · rintro ⟨⟨a, ha, rfl⟩, hz⟩
      exact ⟨a, ⟨ha, by simpa using hz⟩, rfl⟩
    · rintro ⟨a, ⟨ha, hz⟩, rfl⟩
      exact ⟨⟨a, ha, rfl⟩, by simpa using hz⟩
  have h2 : (depsOfName tests t.name).filter
        (fun d => (remaining.map (fun t => t.name)).contains d && !(decide (inDeg d = 0)))
      = (depsOfName tests t.name).filter
        (fun d => ((remaining.filter (fun t => ¬(inDeg t.name = 0))).map
          (fun t => t.name)).contains d) := by
    apply List.filter_congr
    intro d _
    rw [Bool.eq_iff_iff]
    simp only [Bool.and_eq_true, Bool.not_eq_true', decide_eq_false_iff_not,
      contains_iff, mem_filter_names, List.mem_map, List.mem_filter]
    constructor
    · rintro ⟨⟨a, ha, rfl⟩, hz⟩
      exact ⟨a, ⟨ha, by simpa using hz⟩, rfl⟩
    · rintro ⟨a, ⟨ha, hz⟩, rfl⟩
      exact ⟨⟨a, ha, rfl⟩, by simpa using hz⟩
  rw [h1, h2] at hsplit
  omega

theorem filter_not_deg_eq (remaining : List TestDependency) (inDeg : String → ℕ) :
    remaining.filter (fun t => ¬(inDeg t.name = 0))
      = remaining.filter (fun t => !(decide (inDeg t.name = 0))) := by
  apply List.filter_congr
  intro x _
  simp [decide_not]

/-- Correctness of the accepting runs of the Kahn loop: the emitted
phases partition the remaining names, and every dependency edge inside
the remaining set points to a strictly earlier phase. -/
theorem kahnLoop_ok_spec (tests : List TestDependency)
    (hnodupT : (tests.map (fun t => t.name)).Nodup) :
    ∀ (n : ℕ) (remaining : List TestDependency) (inDeg : String → ℕ),
      remaining.length ≤ n →
      (∀ t ∈ remaining, t ∈ tests) →
      (remaining.map (fun t => t.name)).Nodup →
      (∀ t ∈ remaining, inDeg t.name
        = ((depsOfName tests t.name).filter
            (fun d => (remaining.map (fun t => t.name)).contains d)).length) →
      ∀ phases, kahnLoop tests remaining inDeg = .ok phases →
        phases.flatten.Perm (remaining.map (fun t => t.name))
        ∧ ∀ t ∈ remaining, ∀ d ∈ t.dependsOn,
            (remaining.map (fun t => t.name)).contains d = true →
            ∃ i j, phaseIdx phases t.name = some i ∧ phaseIdx phases d = some j ∧ j < i := by
  intro n
  induction n with
  | zero =>
    intro remaining inDeg hlen hsub hnodupR hdeg phases hok
    have hnil : remaining = [] := List.length_eq_zero.mp (Nat.le_zero.mp hlen)
    subst hnil
    rw [kahnLoop_nil] at hok
    cases hok
    exact ⟨by simp, by intro t ht; simp at ht⟩
  | succ m ih =>
    intro remaining inDeg hlen hsub hnodupR hdeg phases hok
    by_cases hrem : remaining = []
    · subst hrem
      rw [kahnLoop_nil] at hok
      cases hok
      exact ⟨by simp, by intro t ht; simp at ht⟩
    by_cases hph : remaining.filter (fun t => inDeg t.name = 0) = []
    · rw [kahnLoop_stall tests remaining inDeg hrem hph] at hok
      cases hok
    rw [kahnLoop_step tests remaining inDeg hrem hph] at hok
    cases hrec : kahnLoop tests (remaining.filter (fun t => ¬(inDeg t.name = 0)))
        (decremented tests inDeg
          ((remaining.filter (fun t => inDeg t.name = 0)).map (fun t => t.name))) with
    | error e =>
      rw [hrec] at hok
      cases hok
    | ok rest =>
      rw [hrec] at hok
      cases hok
      have hsub' : ∀ t ∈ remaining.filter (fun t => ¬(inDeg t.name = 0)), t ∈ tests :=
        fun t ht => hsub t (List.mem_filter.mp ht).1
      have hnodupR' : ((remaining.filter (fun t => ¬(inDeg t.name = 0))).map
          (fun t => t.name)).Nodup :=
        List.Nodup.sublist (List.Sublist.map _ (List.filter_sublist remaining)) hnodupR
      have hlen' : (remaining.filter (fun t => ¬(inDeg t.name = 0))).length ≤ m := by
        have hlt : (remaining.filter (fun t => ¬(inDeg t.name = 0))).length
            < remaining.length := by
          apply List.length_filter_lt_length_iff_exists.mpr
          obtain ⟨x, hx⟩ := List.exists_mem_of_ne_nil _ hph
          have hmem := List.mem_filter.mp hx
          exact ⟨x, hmem.1, by simpa using hmem.2⟩
        omega
      have hdeg' := inv_preserved tests remaining inDeg hdeg
      obtain ⟨hperm, horder⟩ := ih (remaining.filter (fun t => ¬(inDeg t.name = 0)))
        (decremented tests inDeg
          ((remaining.filter (fun t => inDeg t.name = 0)).map (fun t => t.name)))
        hlen' hsub' hnodupR' hdeg' rest hrec
      constructor
      · rw [List.flatten_cons]
        have hsplitperm : (((remaining.filter (fun t => inDeg t.name = 0)).map
              (fun t => t.name))
            ++ ((remaining.filter (fun t => ¬(inDeg t.name = 0))).map (fun t => t.name))).Perm
            (remaining.map (fun t => t.name)) := by
          rw [filter_not_deg_eq]
          have := (List.filter_append_perm (fun t => decide (inDeg t.name = 0))
            remaining).map (fun t => t.name)
          simpa [List.map_append] using this
        exact (List.Perm.append_left _ hperm).trans hsplitperm
      · intro t ht d hd hcont
        by_cases htz : inDeg t.name = 0
        · exfalso
          have hdegt := hdeg t ht
          rw [depsOfName_eq hnodupT (hsub t ht)] at hdegt
          have hmemf : d ∈ t.dependsOn.filter
              (fun d => (remaining.map (fun t => t.name)).contains d) :=
            List.mem_filter.mpr ⟨hd, hcont⟩
          have hpos : 0 < (t.dependsOn.filter
              (fun d => (remaining.map (fun t => t.name)).contains d)).length :=
            List.length_pos.mpr (List.ne_nil_of_mem hmemf)
          omega
        have htrem' : t ∈ remaining.filter (fun t => ¬(inDeg t.name = 0)) :=
          List.mem_filter.mpr ⟨ht, by simpa using htz⟩
        have htnotph : ¬ t.name ∈ (remaining.filter (fun t => inDeg t.name = 0)).map
            (fun t => t.name) := by
          intro hmem
          obtain ⟨-, hz⟩ :=
            (mem_filter_names remaining (fun nm => decide (inDeg nm = 0)) t.name).mp hmem
          exact htz (by simpa using hz)
        by_cases hdz : inDeg d = 0
        · have hdmem : d ∈ (remaining.filter (fun t => inDeg t.name = 0)).map
              (fun t => t.name) :=
            (mem_filter_names remaining (fun nm => decide (inDeg nm = 0)) d).mpr
              ⟨(contains_iff _ _).mp hcont, by simpa using hdz⟩
          have htflat : t.name ∈ rest.flatten := by
            apply hperm.mem_iff.mpr
            exact List.mem_map_of_mem (fun t => t.name) htrem'
          obtain ⟨i, hi⟩ := phaseIdx_some_of_mem_flatten htflat
          refine ⟨i + 1, 0, ?_, phaseIdx_cons_mem hdmem, by omega⟩
          rw [phaseIdx_cons_not_mem htnotph, hi]
          rfl
        · have hdnotph : ¬ d ∈ (remaining.filter (fun t => inDeg t.name = 0)).map
              (fun t => t.name) := by
            intro hmem
            obtain ⟨-, hz⟩ :=
              (mem_filter_names remaining (fun nm => decide (inDeg nm = 0)) d).mp hmem
            exact hdz (by simpa using hz)
          have hcont' : ((remaining.filter (fun t => ¬(inDeg t.name = 0))).map
              (fun t => t.name)).contains d = true := by
            rw [contains_iff]
            exact (mem_filter_names remaining (fun nm => decide (¬(inDeg nm = 0))) d).mpr
              ⟨(contains_iff _ _).mp hcont, by simpa using hdz⟩
          obtain ⟨i, j, hi, hj, hij⟩ := horder t htrem' d hd hcont'
          refine ⟨i + 1, j + 1, ?_, ?_, by omega⟩
          · rw [phaseIdx_cons_not_mem htnotph, hi]
            rfl
          · rw [phaseIdx_cons_not_mem hdnotph, hj]
            rfl

/-- A finite nonempty set of tests in which every member has a
dependency inside the set contains a dependency cycle. -/
theorem hasCycle_of_no_sink (tests : List TestDependency) (S : List TestDependency)
    (hS : S ≠ []) (hstep : ∀ t ∈ S, ∃ u ∈ S, DepEdge tests t.name u.name) :
    HasCycle tests := by
  have hn : 0 < S.length := List.length_pos.mpr hS
  have hf : ∀ i : Fin S.length, ∃ j : Fin S.length,
      DepEdge tests (S.get i).name (S.get j).name := by
    intro i
    obtain ⟨u, hu, hedge⟩ := hstep (S.get i) (List.get_mem S i.1 i.2)
    obtain ⟨j, hj⟩ := List.mem_iff_get.mp hu
    rw [← hj] at hedge
    exact ⟨j, hedge⟩
  choose f hf using hf
  have hpath : ∀ (k : ℕ), 1 ≤ k → ∀ (i : Fin S.length),
      DepPath tests (S.get i).name (S.get (f^[k] i)).name := by
    intro k
    induction k with
    | zero => omega
    | succ k ihk =>
      intro _ i
      by_cases hk : k = 0
      · subst hk
        rw [Function.iterate_one]
        exact DepPath.single (hf i)
      · have hk1 : 1 ≤ k := Nat.one_le_iff_ne_zero.mpr hk
        rw [Function.iterate_succ_apply]
        exact DepPath.cons (hf i) (ihk hk1 (f i))
  have hmapsto : ∀ k ∈ Finset.range (S.length + 1),
      f^[k] ⟨0, hn⟩ ∈ (Finset.univ : Finset (Fin S.length)) :=
    fun k _ => Finset.mem_univ _
  have hcard : (Finset.univ : Finset (Fin S.length)).card
      < (Finset.range (S.length + 1)).card := by
    simp [Finset.card_univ]
  obtain ⟨a, ha, b, hb, hab, heq⟩ :=
    Finset.exists_ne_map_eq_of_card_lt_of_maps_to hcard hmapsto
  have key : ∀ (a b : ℕ), a < b → f^[a] ⟨0, hn⟩ = f^[b] ⟨0, hn⟩ → HasCycle tests := by
    intro a b hlt heq
    have hiter : f^[b - a] (f^[a] ⟨0, hn⟩) = f^[b] ⟨0, hn⟩ := by
      rw [← Function.iterate_add_apply]
      congr 1
      omega
    have hp := hpath (b - a) (by omega) (f^[a] ⟨0, hn⟩)
    rw [hiter, ← heq] at hp
    exact ⟨(S.get (f^[a] ⟨0, hn⟩)).name, hp⟩
  rcases Nat.lt_or_ge a b with hlt | hge
  · exact key a b hlt heq
  · have hlt : b < a := by omega
    exact key b a hlt heq.symm

/-- An erroring run of the Kahn loop exhibits a cycle. -/
theorem kahnLoop_error_cycle (tests : List TestDependency)
    (hnodupT : (tests.map (fun t => t.name)).Nodup) :
    ∀ (n : ℕ) (remaining : List TestDependency) (inDeg : String → ℕ),
      remaining.length ≤ n →
      (∀ t ∈ remaining, t ∈ tests) →
      (∀ t ∈ remaining, inDeg t.name
        = ((depsOfName tests t.name).filter
            (fun d => (remaining.map (fun t => t.name)).contains d)).length) →
      ∀ e, kahnLoop tests remaining inDeg = .error e → HasCycle tests := by
  intro n
  induction n with
  | zero =>
    intro remaining inDeg hlen hsub hdeg e herr
    have hnil : remaining = [] := List.length_eq_zero.mp (Nat.le_zero.mp hlen)
    subst hnil
    rw [kahnLoop_nil] at herr
    cases herr
  | succ m ih =>
    intro remaining inDeg hlen hsub hdeg e herr
    by_cases hrem : remaining = []
    · subst hrem
      rw [kahnLoop_nil] at herr
      cases herr
    by_cases hph : remaining.filter (fun t => inDeg t.name = 0) = []
    · apply hasCycle_of_no_sink tests remaining hrem
      intro t ht
      have htz : ¬ inDeg t.name = 0 := by
        intro hz
        have hmem : t ∈ remaining.filter (fun t => inDeg t.name = 0) :=
          List.mem_filter.mpr ⟨ht, by simpa using hz⟩
        rw [hph] at hmem
        simp at hmem
      have hdegt := hdeg t ht
      rw [depsOfName_eq hnodupT (hsub t ht)] at hdegt
      have hfne : t.dependsOn.filter
          (fun d => (remaining.map (fun t => t.name)).contains d) ≠ [] := by
        intro hnil
        rw [hnil] at hdegt
        exact htz (by simpa using hdegt)
      obtain ⟨d, hdf⟩ := List.exists_mem_of_ne_nil _ hfne
      have hdmem := List.mem_filter.mp hdf
      obtain ⟨u, hu, hud⟩ := List.mem_map.mp ((contains_iff _ _).mp hdmem.2)
      exact ⟨u, hu, t, hsub t ht, rfl, hud ▸ hdmem.1⟩
    · rw [kahnLoop_step tests remaining inDeg hrem hph] at herr
      cases hrec : kahnLoop tests (remaining.filter (fun t => ¬(inDeg t.name = 0)))
          (decremented tests inDeg
            ((remaining.filter (fun t => inDeg t.name = 0)).map (fun t => t.name))) with
      | error e2 =>
        have hsub' : ∀ t ∈ remaining.filter (fun t => ¬(inDeg t.name = 0)), t ∈ tests :=
          fun t ht => hsub t (List.mem_filter.mp ht).1
        have hlen' : (remaining.filter (fun t => ¬(inDeg t.name = 0))).length ≤ m := by
          have hlt : (remaining.filter (fun t => ¬(inDeg t.name = 0))).length
              < remaining.length := by
            apply List.length_filter_lt_length_iff_exists.mpr
            obtain ⟨x, hx⟩ := List.exists_mem_of_ne_nil _ hph
            have hmem := List.mem_filter.mp hx
            exact ⟨x, hmem.1, by simpa using hmem.2⟩
          omega
        exact ih (remaining.filter (fun t => ¬(inDeg t.name = 0)))
          (decremented tests inDeg
            ((remaining.filter (fun t => inDeg t.name = 0)).map (fun t => t.name)))
          hlen' hsub' (inv_preserved tests remaining inDeg hdeg) e2 hrec
      | ok rest =>
        rw [hrec] at herr
        cases herr

theorem firstUnknown_none_iff {tests : List TestDependency} :
    firstUnknown tests = none
      ↔ ∀ t ∈ tests, ∀ d ∈ t.dependsOn, ∃ u ∈ tests, u.name = d := by
  unfold firstUnknown
  rw [List.findSome?_eq_none_iff]
  constructor
  · intro h t ht d hd
    have h1 := h t ht
    rw [Option.map_eq_none'] at h1
    have h2 := List.find?_eq_none.mp h1 d hd
    simp only [Bool.not_eq_true', List.any_eq_true, decide_eq_true_eq] at h2
    obtain ⟨u, hu, hud⟩ := List.any_eq_true.mp (Bool.of_not_eq_false h2)
    exact ⟨u, hu, by simpa using hud⟩
  · intro h t ht
    rw [Option.map_eq_none']
    rw [List.find?_eq_none]
    intro d hd
    simp only [Bool.not_eq_true']
    obtain ⟨u, hu, hud⟩ := h t ht d hd
    intro hfalse
    rw [List.any_eq_false] at hfalse
    exact hfalse u hu (by simpa using hud)

theorem firstUnknown_some {tests : List TestDependency} {td : String × String}
    (h : firstUnknown tests = some td) :
    ∃ t ∈ tests, ∃ d ∈ t.dependsOn, ∀ u ∈ tests, ¬ u.name = d := by
  obtain ⟨t, ht, hft⟩ := List.exists_of_findSome?_eq_some h
  cases hfd : t.dependsOn.find? (fun d => !(tests.any (fun u => u.name = d))) with
  | none =>
    rw [hfd] at hft
    simp at hft
  | some d =>
    have hdm := List.mem_of_find?_eq_some hfd
    have hbad := List.find?_some hfd
    refine ⟨t, ht, d, hdm, ?_⟩
    intro u hu he
    rw [Bool.not_eq_true'] at hbad
    rw [List.any_eq_false] at hbad
    exact hbad u hu (by simpa using he)

theorem initial_inv {tests : List TestDependency}
    (hknown : ∀ t ∈ tests, ∀ d ∈ t.dependsOn, ∃ u ∈ tests, u.name = d) :
    ∀ t ∈ tests, initialInDeg tests t.name
      = ((depsOfName tests t.name).filter
          (fun d => (tests.map (fun t => t.name)).contains d)).length := by
  intro t ht
  unfold initialInDeg
  congr 1
  symm
  apply List.filter_eq_self.mpr
  intro d hdmem
  rw [contains_iff]
  unfold depsOfName at hdmem
  obtain ⟨u, hu, hd⟩ := List.mem_flatMap.mp hdmem
  have huT : u ∈ tests := (List.mem_filter.mp hu).1
  obtain ⟨v, hv, hvn⟩ := hknown u huT d hd
  exact hvn ▸ List.mem_map_of_mem (fun t => t.name) hv

theorem no_cycle_of_monotone (tests : List TestDependency) (phases : List (List String))
    (hmono : ∀ a b, DepEdge tests a b →
      ∃ i j, phaseIdx phases a = some i ∧ phaseIdx phases b = some j ∧ j < i) :
    ¬ HasCycle tests := by
  rintro ⟨n, hp⟩
  have hdec : ∀ a b, DepPath tests a b →
      ∃ i j, phaseIdx phases a = some i ∧ phaseIdx phases b = some j ∧ j < i := by
    intro a b hpath
    induction hpath with
    | single he => exact hmono _ _ he
    | cons he _ ihp =>
      obtain ⟨i, x, hi, hx, hxi⟩ := hmono _ _ he
      obtain ⟨x2, j, hx2, hj, hjx⟩ := ihp
      rw [hx] at hx2
      cases hx2
      exact ⟨i, j, hi, hj, by omega⟩
  obtain ⟨i, j, hi, hj, hij⟩ := hdec n n hp
  rw [hi] at hj
  cases hj
  omega

/-- C6: over any list of (name, depends_on) pairs with distinct names,
`BuildDAG` (dag.go:19-88) succeeds exactly when no dependency names a
test outside the list and the dependency graph is acyclic; and on
success it returns phases in which every test name appears exactly once
(the flattened phases are a permutation of the input names) and every
dependency of a test sits in a strictly earlier phase than the test. -/
theorem buildDAG_correct (tests : List TestDependency)
    (hnodupT : (tests.map (fun t => t.name)).Nodup) :
    ((∃ phases, BuildDAG tests = .ok phases)
      ↔ ¬((∃ t ∈ tests, ∃ d ∈ t.dependsOn, ∀ u ∈ tests, ¬ u.name = d) ∨ HasCycle tests))
    ∧ ∀ phases, BuildDAG tests = .ok phases →
        phases.flatten.Perm (tests.map (fun t => t.name))
        ∧ ∀ t ∈ tests, ∀ d ∈ t.dependsOn,
            ∃ i j, phaseIdx phases t.name = some i ∧ phaseIdx phases d = some j ∧ j < i := by
  have hok2 : ∀ phases, BuildDAG tests = .ok phases →
      phases.flatten.Perm (tests.map (fun t => t.name))
      ∧ ∀ t ∈ tests, ∀ d ∈ t.dependsOn,
          ∃ i j, phaseIdx phases t.name = some i ∧ phaseIdx phases d = some j ∧ j < i := by
    intro phases hok
    unfold BuildDAG at hok
    by_cases hTe : tests.isEmpty
    · rw [if_pos hTe] at hok
      cases hok
      have hnil : tests = [] := List.isEmpty_iff.mp hTe
      subst hnil
      exact ⟨by simp, by intro t ht; simp at ht⟩
    · rw [if_neg hTe] at hok
      cases hfu : firstUnknown tests with
      | some td =>
        rw [hfu] at hok
        cases hok
      | none =>
        rw [hfu] at hok
        have hknown := firstUnknown_none_iff.mp hfu
        have hspec := kahnLoop_ok_spec tests hnodupT tests.length tests
          (initialInDeg tests) le_rfl (fun t ht => ht) hnodupT (initial_inv hknown)
          phases hok
        refine ⟨hspec.1, ?_⟩
        intro t ht d hd
        apply hspec.2 t ht d hd
        obtain ⟨u, hu, hun⟩ := hknown t ht d hd
        exact (contains_iff _ _).mpr (hun ▸ List.mem_map_of_mem (fun t => t.name) hu)
  refine ⟨⟨?_, ?_⟩, hok2⟩
  · rintro ⟨phases, hok⟩ (⟨t, ht, d, hd, hnone⟩ | hcyc)
    · unfold BuildDAG at hok
      have hTe : ¬ tests.isEmpty = true := by
        intro h
        rw [List.isEmpty_iff] at h
        subst h
        simp at ht
      rw [if_neg hTe] at hok
      cases hfu : firstUnknown tests with
      | some td =>
        rw [hfu] at hok
        cases hok
      | none =>
        obtain ⟨u, hu, hun⟩ := firstUnknown_none_iff.mp hfu t ht d hd
        exact hnone u hu hun
    · have hsp := hok2 phases hok
      apply no_cycle_of_monotone tests phases ?_ hcyc
      rintro a b ⟨t, ht, rfl, hb⟩
      exact hsp.2 t ht b hb
  · intro hno
    unfold BuildDAG
    by_cases hTe : tests.isEmpty
    · rw [if_pos hTe]
      exact ⟨[], rfl⟩
    · rw [if_neg hTe]
      cases hfu : firstUnknown tests with
      | some td =>
        obtain ⟨t, ht, d, hd, hn⟩ := firstUnknown_some hfu
        exact absurd (Or.inl ⟨t, ht, d, hd, hn⟩) hno
      | none =>
        have hknown := firstUnknown_none_iff.mp hfu
        cases hres : kahnLoop tests tests (initialInDeg tests) with
        | error e =>
          have hcyc := kahnLoop_error_cycle tests hnodupT tests.length tests
            (initialInDeg tests) le_rfl (fun t ht => ht) (initial_inv hknown) e hres
          exact absurd (Or.inr hcyc) hno
        | ok phases => exact ⟨phases, rfl⟩

def tdA : TestDependency := { name := "A", dependsOn := [] }

def tdB : TestDependency := { name := "B", dependsOn := ["A"] }

def testsW6 : List TestDependency := [tdA, tdB]

theorem buildDAG_w6 : BuildDAG testsW6 = .ok [["A"], ["B"]] := by
  have h2 : kahnLoop testsW6 [tdB]
      (decremented testsW6 (initialInDeg testsW6) ["A"]) = .ok [["B"]] := by
    rw [kahnLoop_step testsW6 [tdB] _ (List.cons_ne_nil _ _) (by decide)]
    rw [show [tdB].filter
        (fun t => ¬((decremented testsW6 (initialInDeg testsW6) ["A"]) t.name = 0))
        = ([] : List TestDependency) from by decide]
    rw [kahnLoop_nil]
    rfl
  have h1 : kahnLoop testsW6 testsW6 (initialInDeg testsW6) = .ok [["A"], ["B"]] := by
    rw [kahnLoop_step testsW6 testsW6 _ (List.cons_ne_nil _ _) (by decide)]
    rw [show testsW6.filter (fun t => ¬(initialInDeg testsW6 t.name = 0)) = [tdB]
      from by decide]
    rw [show (testsW6.filter (fun t => initialInDeg testsW6 t.name = 0)).map
        (fun t => t.name) = ["A"] from by decide]
    rw [h2]
  unfold BuildDAG
  rw [if_neg (by decide)]
  rw [show firstUnknown testsW6 = none from by decide]
  exact h1

theorem buildDAG_correct_witness :
    ((testsW6.map (fun t => t.name)).Nodup)
    ∧ ((∃ phases, BuildDAG testsW6 = .ok phases)
        ↔ ¬((∃ t ∈ testsW6, ∃ d ∈ t.dependsOn, ∀ u ∈ testsW6, ¬ u.name = d)
            ∨ HasCycle testsW6))
    ∧ ([["A"], ["B"]] : List (List String)).flatten.Perm (testsW6.map (fun t => t.name))
    ∧ ∀ t ∈ testsW6, ∀ d ∈ t.dependsOn,
        ∃ i j, phaseIdx [["A"], ["B"]] t.name = some i
          ∧ phaseIdx [["A"], ["B"]] d = some j ∧ j < i :=
  ⟨by decide,
   (buildDAG_correct testsW6 (by decide)).1,
   ((buildDAG_correct testsW6 (by decide)).2 [["A"], ["B"]] buildDAG_w6).1,
   ((buildDAG_correct testsW6 (by decide)).2 [["A"], ["B"]] buildDAG_w6).2⟩
